import Mathlib

/-!
Verification of the kilua editor core (src/kilua.c) against its
natural-language specification.

This file is a shallow embedding of the data model and the operations of
src/kilua.c needed by the claims C1..C10: one editor state mirroring the
current `fileState` of the C global `E` plus the screen geometry, together
with executable Lean translations of `editorUpdateRow`, the highlighter
(`editorUpdateSyntax` / `editorRowHasOpenComment`), `editorMoveCursor`,
`at`, `get_selection`, `selection_lua`, `cut_selection_lua`, `delete_lua`,
`editorInsertChar`, `editorInsertNewline`, `editorInsertRow`,
`editorDelRow`, `editorRowAppendString`, `editorRowDelChar`,
`editorRowsToString`, `save_lua`, `editorOpen` and `search_lua`.

Machine integers of the C source are modelled as `Int` (the C `int` fields
do go negative in reachable states, which several claims are about).
Bytes are modelled as `Char` restricted in practice to the ASCII range;
the C strings carried around are `List Char` without the terminating NUL
unless the source itself stores one (see `editorRowDelChar`).
-/

set_option autoImplicit false

namespace Kilua

/-- The HL_* highlight tags of kilua.h (HL_NORMAL, HL_NONPRINT, HL_COMMENT,
HL_MLCOMMENT, HL_KEYWORD1, HL_KEYWORD2, HL_STRING, HL_NUMBER, HL_MATCH,
HL_SELECTION). -/
inductive Hl where
  | normal
  | nonprint
  | comment
  | mlcomment
  | keyword1
  | keyword2
  | strtag
  | number
  | hlmatch
  | selection
  deriving Repr, DecidableEq

/-- C `isspace` for the ASCII locale: space, \t, \n, \v, \f, \r. -/
def csIsSpace (c : Char) : Bool :=
  c = ' ' ∨ c = '\t' ∨ c = '\n' ∨ c = '\x0b' ∨ c = '\x0c' ∨ c = '\x0d'

/-- C `isdigit`. -/
def csIsDigit (c : Char) : Bool :=
  '0' ≤ c ∧ c ≤ '9'

/-- C `isprint` for the ASCII locale: 0x20 .. 0x7e. -/
def csIsPrint (c : Char) : Bool :=
  ' ' ≤ c ∧ c ≤ '\x7e'

/-- `is_separator` (kilua.c:1930): NUL, whitespace, or one of the listed
punctuation bytes. -/
def is_separator (c : Char) : Bool :=
  c = '\x00' ∨ csIsSpace c ∨
    (String.toList ":\x7b\x7d,.()+-/*=~%[];<>|&").contains c

/-- The per-buffer `editorSyntax` configuration (keywords, single and
multi-line comment delimiters, highlight flags).  The C `flags` bitset
HL_HIGHLIGHT_STRINGS / HL_HIGHLIGHT_NUMBERS is modelled as two booleans. -/
structure SynCfg where
  keywords : List (List Char)
  singleline_comment_start : List Char
  multiline_comment_start : List Char
  multiline_comment_end : List Char
  hlStrings : Bool
  hlNumbers : Bool
  deriving Repr, DecidableEq

/-- One `erow`: raw bytes, rendered bytes, highlight array and the open
multi-line-comment flag.  `size` and `rsize` of the C struct are
`chars.length` and `render.length`; the `idx` field is the row's position
in the buffer's row list and is passed explicitly where needed. -/
structure Erow where
  chars : List Char
  render : List Char
  hl : List Hl
  hl_oc : Bool
  deriving Repr, DecidableEq

instance : Inhabited Erow := ⟨⟨[], [], [], false⟩⟩

/-- The editor state: the current `fileState` of the global `E` (rows,
cursor, viewport offsets, mark, dirty counter, filename, syntax
configuration and tab size) plus the screen geometry.  `numrows` is kept
as a separate field exactly as in C — during `editorInsertRow` the row
array already holds the new row while `numrows` still has its old value,
which is observable in the highlight propagation. -/
structure EState where
  rows : List Erow
  numrows : Int
  cx : Int
  cy : Int
  coloff : Int
  rowoff : Int
  markx : Int
  marky : Int
  dirty : Int
  filename : Option (List Char)
  syn : Option SynCfg
  tab_size : Nat
  screenrows : Int
  screencols : Int
  deriving Repr, DecidableEq

/-- Row lookup `&E.file[E.current_file]->row[i]` guarded by the C-side
bound check `i >= numrows ? NULL : ...`.  A negative index would be
undefined behaviour in C; it is modelled as `none`. -/
def rowAt (s : EState) (i : Int) : Option Erow :=
  if 0 ≤ i ∧ i < s.numrows then s.rows.get? i.toNat else none

/-- Unguarded row access `row[i]` (used where the C indexes without a
check); out-of-range reads — undefined behaviour in C — yield the empty
default row. -/
def rowIdx (s : EState) (i : Int) : Erow :=
  if 0 ≤ i then s.rows.getD i.toNat default else default

/-- Replace row `i` of the row array. -/
def setRow (s : EState) (i : Nat) (r : Erow) : EState :=
  { s with rows := s.rows.set i r }

/-! ### 4.1 Row rendering (`editorUpdateRow`, kilua.c:2323) -/

/-- The inner TAB-expansion loop of `editorUpdateRow` (kilua.c:2344):
`while ((idx + 1) % tab_size != 0) render[idx++] = ' '` — the spaces
emitted after the first one, starting from position `idx`.  The source
assumes `tab_size > 0` (with `tab_size = 0` the C loop would divide by
zero); that degenerate case is cut off to keep the function total. -/
def tabFillGo (T : Nat) : Nat → Nat → List Char
  | 0, _ => []
  | fuel + 1, idx =>
    if (idx + 1) % T = 0 then []
    else ' ' :: tabFillGo T fuel (idx + 1)

/-- The loop stops within `T` steps when `T > 0` (among any `T`
consecutive positions one is divisible by `T`), so fuel `T` makes
`tabFillGo` exactly the C loop; with `T = 0` the C loop would divide by
zero (and never stop), modelled as no spaces. -/
def tabFill (T : Nat) (idx : Nat) : List Char :=
  tabFillGo T T idx

/-- The rendering loop of `editorUpdateRow` (kilua.c:2338–2351): every TAB
byte becomes one space plus the `tabFill` spaces; every other byte is
copied.  `idx` is the current output position. -/
def renderChars (T : Nat) : List Char → Nat → List Char
  | [], _ => []
  | c :: rest, idx =>
    if c = '\t' then
      let sp := ' ' :: tabFill T (idx + 1)
      sp ++ renderChars T rest (idx + sp.length)
    else
      c :: renderChars T rest (idx + 1)

/-! ### 4.2 Syntax highlighter (`editorUpdateSyntax`, kilua.c:1976, and
`editorRowHasOpenComment`, kilua.c:1938) -/

/-- The non-empty-row body of `editorRowHasOpenComment` (kilua.c:1956):
the row's last highlight tag must be MLCOMMENT (an empty / stale `hl`
skips that test, like the C null check on `row->hl`), and the row must
not end in the close delimiter.  The C reads `render + rsize - len`; a
close delimiter longer than the row would be an out-of-bounds read in C
and is modelled by the (then false) comparison on `drop (rsize - len)`. -/
def rowEndsOpen (cfg : SynCfg) (row : Erow) : Bool :=
  if row.hl ≠ [] ∧ row.hl.getLastD Hl.normal ≠ Hl.mlcomment then
    false
  else
    let len := cfg.multiline_comment_end.length
    if len ≠ 0 ∧
        row.render.drop (row.render.length - len) =
          cfg.multiline_comment_end then
      false
    else
      true

/-- `editorRowHasOpenComment` (kilua.c:1938) on the row at index `i`: an
empty row chains to the row above it; a non-empty row is decided by
`rowEndsOpen`. -/
def editorRowHasOpenComment (rows : List Erow) (cfg : SynCfg) : Nat → Bool
  | 0 =>
    let row := rows.getD 0 default
    if row.render.length = 0 then false else rowEndsOpen cfg row
  | i + 1 =>
    let row := rows.getD (i + 1) default
    if row.render.length = 0 then editorRowHasOpenComment rows cfg i
    else rowEndsOpen cfg row

/-- The mutable locals of the `editorUpdateSyntax` scan loop, plus the
highlight array being filled in and the list of all indices written to it
(in order).  `in_string` is the C `int` holding the opening quote byte,
with `'\x00'` meaning "not in a string".  `early` records that the
single-line-comment branch executed `return`, skipping the open-comment
propagation at the end of `editorUpdateSyntax`. -/
structure SynSt where
  hl : List Hl
  writes : List Nat
  i : Nat
  prev_sep : Bool
  in_string : Char
  in_comment : Bool
  early : Bool
  deriving Repr, DecidableEq

/-- One store `row->hl[j] = t`, with the target index recorded.  A store
at `j ≥ hl.length` is a heap overflow in C; `List.set` drops it but the
index still appears in `writes`. -/
def hlW (st : SynSt) (j : Nat) (t : Hl) : SynSt :=
  { st with hl := st.hl.set j t, writes := st.writes ++ [j] }

/-- The keyword scan of `editorUpdateSyntax` (kilua.c:2125–2204, the
non-`_REGEXP` branch): the first keyword that matches literally at `p`
(after stripping a trailing `|`, which marks a KEYWORD2 keyword) and is
followed by a separator byte (`render[rsize] = '\x00'` at end of row).
Returns the matched length and the KEYWORD2 flag.  An empty keyword would
make the C read `keywords[j][-1]` and then loop forever; it is skipped. -/
def kwMatch (kws : List (List Char)) (p : List Char) : Option (Nat × Bool) :=
  match kws with
  | [] => none
  | kw :: rest =>
    if kw = [] then kwMatch rest p
    else
      let kw2 := kw.getLastD '\x00' = '|'
      let klen := if kw2 then kw.length - 1 else kw.length
      if (kw.take klen).isPrefixOf p ∧ is_separator (p.getD klen '\x00') then
        some (klen, kw2)
      else kwMatch rest p

/-- A run of consecutive stores `hl[base + x] = t` for `x = 0 .. len-1`
(the `memset` / `for` loops painting a delimiter, a keyword or a
single-line comment). -/
def hlWRange (st : SynSt) (base len : Nat) (t : Hl) : SynSt :=
  (List.range len).foldl (fun a x => hlW a (base + x) t) st

theorem hlWRange_in_comment (st : SynSt) (b l : Nat) (t : Hl) :
    (hlWRange st b l t).in_comment = st.in_comment := by
  unfold hlWRange
  generalize List.range l = xs
  induction xs generalizing st with
  | nil => rfl
  | cons x xs ih => exact ih _

theorem hlWRange_prev_sep (st : SynSt) (b l : Nat) (t : Hl) :
    (hlWRange st b l t).prev_sep = st.prev_sep := by
  unfold hlWRange
  generalize List.range l = xs
  induction xs generalizing st with
  | nil => rfl
  | cons x xs ih => exact ih _

theorem hlWRange_i (st : SynSt) (b l : Nat) (t : Hl) :
    (hlWRange st b l t).i = st.i := by
  unfold hlWRange
  generalize List.range l = xs
  induction xs generalizing st with
  | nil => rfl
  | cons x xs ih => exact ih _

/-- The `while (*p)` scan loop of `editorUpdateSyntax` (kilua.c:2008–2218)
over the remaining rendered bytes.  Branches in source order: multi-line
comment body/close, multi-line comment open, single-line comment
(terminates the row with an early `return`), string body with backslash
escapes, string open, numbers, the separator → KEYWORD1 store, keywords,
and the fall-through.  A NUL byte stops the scan like the C loop
condition. -/
def synGo (cfg : SynCfg) (rsize : Nat) : Nat → List Char → SynSt → SynSt
  | 0, _, st => st
  | _ + 1, [], st => st
  | fuel + 1, c :: rest, st =>
    if c = '\x00' then st
    else if st.in_comment then
      -- kilua.c:2012: paint MLCOMMENT, then look for the close delimiter
      let st1 := hlW st st.i Hl.mlcomment
      if cfg.multiline_comment_end.isPrefixOf (c :: rest) then
        let len := cfg.multiline_comment_end.length
        let st2 := hlWRange st1 st1.i len Hl.mlcomment
        synGo cfg rsize fuel ((c :: rest).drop len)
          { st2 with i := st2.i + len, in_comment := false, prev_sep := true }
      else
        synGo cfg rsize fuel rest
          { st1 with i := st1.i + 1, prev_sep := false }
    else if hmcs : cfg.multiline_comment_start ≠ [] ∧
        cfg.multiline_comment_start.isPrefixOf (c :: rest) then
      -- kilua.c:2039: open a multi-line comment
      let len := cfg.multiline_comment_start.length
      let st2 := hlWRange st st.i len Hl.mlcomment
      synGo cfg rsize fuel ((c :: rest).drop len)
        { st2 with i := st2.i + len, in_comment := true, prev_sep := false }
    else if st.prev_sep ∧ cfg.singleline_comment_start ≠ [] ∧
        cfg.singleline_comment_start.isPrefixOf (c :: rest) then
      -- kilua.c:2056: comment to end of row, then return from the whole
      -- function (skipping the hl_oc propagation)
      let st2 := hlWRange st st.i (rsize - st.i) Hl.comment
      { st2 with early := true }
    else if st.in_string ≠ '\x00' then
      -- kilua.c:2065: inside a string
      let st1 := if cfg.hlStrings then hlW st st.i Hl.strtag else st
      if c = '\\' then
        let st2 := if cfg.hlStrings then hlW st1 (st1.i + 1) Hl.strtag else st1
        synGo cfg rsize fuel (rest.drop 1)
          { st2 with i := st2.i + 2, prev_sep := false }
      else
        let st2 := if c = st1.in_string then
          { st1 with in_string := '\x00' } else st1
        synGo cfg rsize fuel rest { st2 with i := st2.i + 1 }
    else if c = '"' ∨ c = '\'' then
      -- kilua.c:2090: open a string
      let st1 := { st with in_string := c }
      let st2 := if cfg.hlStrings then hlW st1 st1.i Hl.strtag else st1
      synGo cfg rsize fuel rest { st2 with i := st2.i + 1, prev_sep := false }
    else if (csIsDigit c ∧
          (st.prev_sep ∨ st.hl.getD (st.i - 1) Hl.normal = Hl.number)) ∨
        (c = '.' ∧ 0 < st.i ∧ st.hl.getD (st.i - 1) Hl.normal = Hl.number) then
      -- kilua.c:2105: numbers
      let st1 := if cfg.hlNumbers then hlW st st.i Hl.number else st
      synGo cfg rsize fuel rest { st1 with i := st1.i + 1, prev_sep := false }
    else
      -- kilua.c:2117: separators are tagged KEYWORD1 before falling through
      let st1 := if is_separator c then hlW st st.i Hl.keyword1 else st
      match hm : (if st.prev_sep then kwMatch cfg.keywords (c :: rest)
          else none) with
      | some (klen, kw2) =>
        let st2 := hlWRange st1 st1.i klen
          (if kw2 then Hl.keyword2 else Hl.keyword1)
        synGo cfg rsize fuel ((c :: rest).drop klen)
          { st2 with i := st2.i + klen, prev_sep := false }
      | none =>
        synGo cfg rsize fuel rest
          { st1 with i := st1.i + 1, prev_sep := is_separator c }

/-- The single-row part of `editorUpdateSyntax` applied to row `idx`:
initialise `hl` to NORMAL over the rendered length (the `realloc` +
`memset`, kilua.c:1978), skip leading whitespace (kilua.c:1993), seed
`in_comment` from the previous row's recomputed open-comment state
(kilua.c:2005), then run the scan loop.  Every scan iteration either
consumes a byte or flips `in_comment` or `prev_sep` off without consuming
(close delimiter of length 0; keyword match of length 0), and at most two
such non-consuming iterations can occur in a row, so fuel
`3 * rsize + 3` runs the loop to completion. -/
def synRowResult (cfg : SynCfg) (rows : List Erow) (idx : Nat) : SynSt :=
  let row := rows.getD idx default
  let rsize := row.render.length
  let lead := (row.render.takeWhile
    (fun c => ¬c = '\x00' ∧ csIsSpace c)).length
  let inc := idx ≠ 0 ∧ editorRowHasOpenComment rows cfg (idx - 1)
  synGo cfg rsize (3 * rsize + 3) (row.render.drop lead)
    { hl := List.replicate rsize Hl.normal, writes := [], i := lead,
      prev_sep := true, in_string := '\x00', in_comment := inc,
      early := false }

/-- `editorUpdateSyntax` (kilua.c:1976) on row `idx`, including the
propagation to following rows: when the freshly computed open-comment
state differs from the stored `hl_oc` and a following row exists (per the
`numrows` field, which during `editorInsertRow` still holds the old
count), the next row is re-highlighted recursively; `hl_oc` is stored
afterwards.  With no syntax configured the row is NORMAL and the function
returns before the propagation; the single-line-comment `return` inside
the scan loop (`early`) also skips it. -/
def updateSynFromGo (fuel : Nat) (s : EState) (idx : Nat) : EState :=
  match s.syn with
  | none =>
    let row := s.rows.getD idx default
    setRow s idx { row with hl := List.replicate row.render.length Hl.normal }
  | some cfg =>
    let st := synRowResult cfg s.rows idx
    let row := s.rows.getD idx default
    let s1 := setRow s idx { row with hl := st.hl }
    if st.early then s1
    else
      let oc := editorRowHasOpenComment s1.rows cfg idx
      let s2 := if row.hl_oc ≠ oc ∧ (idx : Int) + 1 < s.numrows then
          match fuel with
          | 0 => s1
          | fuel + 1 => updateSynFromGo fuel s1 (idx + 1)
        else s1
      setRow s2 idx { s2.rows.getD idx default with hl_oc := oc }

/-- `editorUpdateSyntax` recurses at most once per following row
(`idx + 1 < numrows` guards each step), so `numrows` is enough fuel. -/
def updateSynFrom (s : EState) (idx : Nat) : EState :=
  updateSynFromGo s.numrows.toNat s idx

/-- `editorUpdateRow` (kilua.c:2323): recompute the rendered form of row
`idx` from its raw bytes (TAB expansion per `renderChars`) and then update
the syntax highlighting. -/
def editorUpdateRow (s : EState) (idx : Nat) : EState :=
  let row := s.rows.getD idx default
  let s1 := setRow s idx { row with render := renderChars s.tab_size row.chars 0 }
  updateSynFrom s1 idx

/-! ### 4.5 Row editing operations -/

/-- `editorInsertRow` (kilua.c:2362): refuse positions past the end,
insert the row into the array, render and highlight it (while `numrows`
still holds the old count, which bounds the highlight propagation), then
bump `numrows` and `dirty`.  A negative position would be undefined
behaviour in C and is refused here. -/
def editorInsertRow (s : EState) (at_ : Int) (str : List Char) : EState :=
  if at_ > s.numrows ∨ at_ < 0 then s
  else
    let s1 := { s with rows := s.rows.insertIdx at_.toNat ⟨str, [], [], false⟩ }
    let s2 := editorUpdateRow s1 at_.toNat
    { s2 with numrows := s2.numrows + 1, dirty := s2.dirty + 1 }

/-- `editorDelRow` (kilua.c:2405): bounds-checked removal of a row,
shifting the following rows up; bumps `dirty`.  A negative position would
be undefined behaviour in C and is refused here. -/
def editorDelRow (s : EState) (at_ : Int) : EState :=
  if at_ ≥ s.numrows ∨ at_ < 0 then s
  else
    { s with
        rows := s.rows.eraseIdx at_.toNat,
        numrows := s.numrows - 1,
        dirty := s.dirty + 1 }

/-- `editorRowAppendString` (kilua.c:2483): append bytes to row `idx`,
re-render, bump `dirty`. -/
def editorRowAppendString (s : EState) (idx : Nat) (str : List Char) :
    EState :=
  let row := s.rows.getD idx default
  let s1 := setRow s idx { row with chars := row.chars ++ str }
  let s2 := editorUpdateRow s1 idx
  { s2 with dirty := s2.dirty + 1 }

/-- `editorRowDelChar` (kilua.c:2494): delete byte `at_` of row `idx`.
The C `memmove`s the tail left (which leaves the shifted NUL terminator
inside the first `size` bytes), calls `editorUpdateRow` while `size` still
has its old value — so the intermediate render ends in a NUL byte — and
only then decrements `size`; the caller (`delete_lua`) re-renders
afterwards.  Bumps `dirty`. -/
def editorRowDelChar (s : EState) (idx : Nat) (at_ : Int) : EState :=
  let row := s.rows.getD idx default
  if (row.chars.length : Int) ≤ at_ ∨ at_ < 0 then s
  else
    let s1 := setRow s idx
      { row with chars := row.chars.eraseIdx at_.toNat ++ ['\x00'] }
    let s2 := editorUpdateRow s1 idx
    let row2 := s2.rows.getD idx default
    let s3 := setRow s2 idx { row2 with chars := row2.chars.dropLast }
    { s3 with dirty := s3.dirty + 1 }

/-- `editorRowInsertChar` (kilua.c:2455): insert byte `c` at position
`at_` of row `idx`, padding with spaces when the position lies past the
end of the row; re-render, bump `dirty`. -/
def editorRowInsertChar (s : EState) (idx : Nat) (at_ : Int) (c : Char) :
    EState :=
  let row := s.rows.getD idx default
  let s1 :=
    if at_ > (row.chars.length : Int) then
      let padlen := (at_ - row.chars.length).toNat
      setRow s idx
        { row with chars := row.chars ++ List.replicate padlen ' ' ++ [c] }
    else
      setRow s idx { row with chars := row.chars.insertIdx at_.toNat c }
  let s2 := editorUpdateRow s1 idx
  { s2 with dirty := s2.dirty + 1 }

/-- `editorRowsToString` (kilua.c:2426): the reported length (first loop:
`size + 1` summed over the first `numrows` rows) and the buffer (second
loop: each row's bytes followed by a newline). -/
def editorRowsToString (s : EState) : List Char × Int :=
  let rs := s.rows.take s.numrows.toNat
  let totlen := rs.foldl (fun acc r => acc + (r.chars.length : Int) + 1) 0
  let buf := rs.foldl (fun acc r => acc ++ r.chars ++ ['\n']) []
  (buf, totlen)

/-- `editorInsertChar` (kilua.c:2523) for a non-newline byte: create any
missing rows up to the cursor row, insert into the row at the cursor
column, advance the cursor (or the column offset at the right edge), bump
`dirty` (in addition to the bump inside `editorRowInsertChar`).
`padRows` is the `while (numrows <= filerow) editorInsertRow(numrows, "")`
loop. -/
def padRows (s : EState) (filerow : Int) (fuel : Nat) : EState :=
  match fuel with
  | 0 => s
  | fuel + 1 =>
    if s.numrows ≤ filerow then
      padRows (editorInsertRow s s.numrows []) filerow fuel
    else s

/-- `editorInsertNewline` (kilua.c:2556): append an empty row when the
cursor is past the end of the buffer, insert an empty row above when at
column 0, otherwise split the row at the cursor column; then advance the
cursor to column 0 of the next screen line (scrolling `rowoff` at the
bottom). -/
def editorInsertNewline (s : EState) : EState :=
  let filerow := s.rowoff + s.cy
  let filecol := s.coloff + s.cx
  let fixcursor : EState → EState := fun t =>
    let t1 := if t.cy = t.screenrows - 1 then { t with rowoff := t.rowoff + 1 }
      else { t with cy := t.cy + 1 }
    { t1 with cx := 0, coloff := 0 }
  match rowAt s filerow with
  | none =>
    if filerow = s.numrows then fixcursor (editorInsertRow s filerow [])
    else s
  | some row =>
    let filecol := if filecol ≥ (row.chars.length : Int) then
      (row.chars.length : Int) else filecol
    if filecol = 0 then
      fixcursor (editorInsertRow s filerow [])
    else
      -- split: the new row gets the suffix, the current row is truncated
      -- (`row->chars[filecol] = '\0'; row->size = filecol`) and re-rendered
      let s1 := editorInsertRow s (filerow + 1) (row.chars.drop filecol.toNat)
      let row1 := s1.rows.getD filerow.toNat default
      let s2 := setRow s1 filerow.toNat
        { row1 with chars := row1.chars.take filecol.toNat }
      fixcursor (editorUpdateRow s2 filerow.toNat)

def editorInsertChar (s : EState) (c : Char) : EState :=
  if c = '\n' then editorInsertNewline s
  else
    let filerow := s.rowoff + s.cy
    let filecol := s.coloff + s.cx
    let s1 := match rowAt s filerow with
      | none => padRows s filerow (filerow + 1 - s.numrows).toNat
      | some _ => s
    let s2 := editorRowInsertChar s1 filerow.toNat filecol c
    let s3 := if s2.cx = s2.screencols - 1 then
        { s2 with coloff := s2.coloff + 1 }
      else { s2 with cx := s2.cx + 1 }
    { s3 with dirty := s3.dirty + 1 }

/-! ### 4.6 Cursor motion and the point (`editorMoveCursor`, `at`) -/

/-- The four arrow keys handled by `editorMoveCursor`. -/
inductive Key where
  | left
  | right
  | up
  | down
  deriving Repr, DecidableEq

/-- The trailing clamp of `editorMoveCursor` (kilua.c:3102): if the file
column now exceeds the (possibly different) current row's length, pull
`cx` back, spilling any negative remainder into `coloff`. -/
def mcClamp (s1 : EState) : EState :=
  let filerow2 := s1.rowoff + s1.cy
  let filecol2 := s1.coloff + s1.cx
  let rowlen : Int :=
    match rowAt s1 filerow2 with
    | some r => (r.chars.length : Int)
    | none => 0
  if filecol2 > rowlen then
    let t : EState := { s1 with cx := s1.cx - (filecol2 - rowlen) }
    if t.cx < 0 then { t with coloff := t.coloff + t.cx, cx := 0 }
    else t
  else s1

/-- `editorMoveCursor` (kilua.c:3001): the four arrow cases followed by
the end-of-line clamp `mcClamp`.  Note the LEFT case decrements `cy`
whenever the cursor is at file column 0 of any row but the first — even
when `cy` is already 0 and only `rowoff` is positive, which drives `cy`
to -1. -/
def editorMoveCursor (key : Key) (s : EState) : EState :=
  let filerow := s.rowoff + s.cy
  let filecol := s.coloff + s.cx
  let row := rowAt s filerow
  let s1 : EState :=
    match key with
    | .left =>
      if s.cx = 0 then
        if s.coloff ≠ 0 then { s with coloff := s.coloff - 1 }
        else if filerow > 0 then
          let t := { s with
            cy := s.cy - 1,
            cx := ((rowIdx s (filerow - 1)).chars.length : Int) }
          if t.cx > s.screencols - 1 then
            { t with coloff := t.cx - s.screencols + 1, cx := s.screencols - 1 }
          else t
        else s
      else { s with cx := s.cx - 1 }
    | .right =>
      (match row with
       | some r =>
         if filecol < (r.chars.length : Int) then
           if s.cx = s.screencols - 1 then { s with coloff := s.coloff + 1 }
           else { s with cx := s.cx + 1 }
         else if filecol = (r.chars.length : Int) then
           if s.cy = s.screenrows - 1 then
             { s with cx := 0, coloff := 0, rowoff := s.rowoff + 1 }
           else if filerow < s.numrows - 1 then
             { s with cx := 0, coloff := 0, cy := s.cy + 1 }
           else s
         else s
       | none => s)
    | .up =>
      if s.cy = 0 then
        if s.rowoff ≠ 0 then { s with rowoff := s.rowoff - 1 } else s
      else { s with cy := s.cy - 1 }
    | .down =>
      if filerow < s.numrows - 1 then
        if s.cy = s.screenrows - 1 then { s with rowoff := s.rowoff + 1 }
        else { s with cy := s.cy + 1 }
      else s
  mcClamp s1

/-- `at` (kilua.c:299): the rendered byte under the cursor, or a newline
when the cursor row does not exist or the cursor column is at or past the
end of the rendered row.  The C compares the signed `cx` against `rsize`
and would index with a negative `cx`; that undefined behaviour is modelled
by the `0 ≤ cx` guard. -/
def atPoint (s : EState) : Char :=
  let filerow := s.rowoff + s.cy
  match rowAt s filerow with
  | some row =>
    if 0 ≤ s.cx ∧ s.cx < (row.render.length : Int) then
      row.render.getD s.cx.toNat '\n'
    else '\n'
  | none => '\n'

/-! ### 4.7 Selection, deletion, search, file I/O -/

/-- One direction of the `get_selection` walk (kilua.c:387 and 421):
collect the byte at the point, move one step, stop (collecting the byte at
the mark as well) once the point reaches the mark.  The C loop has no
termination guard — if the walk never reaches the mark it loops forever;
`fuel` bounds the model, `none` meaning the walk did not finish. -/
def getSelGo (dir : Key) : Nat → EState → List Char → Option (List Char)
  | 0, _, _ => none
  | fuel + 1, s, acc =>
    let acc1 := acc ++ [atPoint s]
    let s1 := editorMoveCursor dir s
    if s1.coloff + s1.cx = s1.markx ∧ s1.rowoff + s1.cy = s1.marky then
      some (acc1 ++ [atPoint s1])
    else getSelGo dir fuel s1 acc1

/-- `get_selection` (kilua.c:355): walk from the point to the mark one
step at a time, left (and reverse the collected bytes) when the point is
after the mark, right otherwise.  The C function restores the cursor and
viewport before returning, so only the collected bytes are returned
here. -/
def get_selection (s : EState) (fuel : Nat) : Option (List Char) :=
  let x := s.coloff + s.cx
  let y := s.rowoff + s.cy
  if y > s.marky ∨ (x > s.markx ∧ y = s.marky) then
    (getSelGo Key.left fuel s []).map List.reverse
  else
    getSelGo Key.right fuel s []

/-- `selection_lua` (kilua.c:766): nil (`some none`) when the mark is
unset or the point sits on the mark, otherwise the selection string.  An
outer `none` means the underlying walk ran out of fuel. -/
def selectionLua (s : EState) (fuel : Nat) : Option (Option (List Char)) :=
  let x := s.coloff + s.cx
  let y := s.rowoff + s.cy
  if s.markx = -1 ∧ s.marky = -1 then some none
  else if s.markx = x ∧ s.marky = y then some none
  else (get_selection s fuel).map some

/-- `delete_lua` (kilua.c:798): backspace.  Nothing at the very start of
the buffer or with no cursor row; at column 0 merge the row into the
previous one; otherwise delete the byte left of the cursor.  Ends with the
"BUGFIX" clamps of `coloff`/`rowoff` to 0, a re-render of the row (unless
it was deleted), and a `dirty` bump. -/
def deleteLua (s : EState) : EState :=
  let filerow := s.rowoff + s.cy
  let filecol := s.coloff + s.cx
  match rowAt s filerow with
  | none => s
  | some row =>
    if filecol = 0 ∧ filerow = 0 then s
    else
      let s4 : EState :=
        if filecol = 0 then
          let prevlen : Int := (rowIdx s (filerow - 1)).chars.length
          let s1 : EState := editorRowAppendString s (filerow - 1).toNat row.chars
          let s2 : EState := editorDelRow s1 filerow
          let s3 : EState := if s2.cy = 0 then { s2 with rowoff := s2.rowoff - 1 }
            else { s2 with cy := s2.cy - 1 }
          let s3 : EState := { s3 with cx := prevlen }
          if s3.cx ≥ s3.screencols then
            let shift : Int := (s3.screencols - s3.cx) + 1
            { s3 with cx := s3.cx - shift, coloff := s3.coloff + shift }
          else s3
        else
          let s1 : EState := editorRowDelChar s filerow.toNat (filecol - 1)
          if s1.cx = 0 ∧ s1.coloff ≠ 0 then { s1 with coloff := s1.coloff - 1 }
          else { s1 with cx := s1.cx - 1 }
      let s5 : EState := if s4.coloff < 0 then { s4 with coloff := 0 } else s4
      let s6 : EState := if s5.rowoff < 0 then { s5 with rowoff := 0 } else s5
      let s7 : EState := if filecol = 0 then s6 else editorUpdateRow s6 filerow.toNat
      { s7 with dirty := s7.dirty + 1 }

/-- `cut_selection_lua` (kilua.c:716): nothing without a mark or with the
point on the mark; otherwise fetch the selection and delete as many bytes
(`strlen(sel)`; the walk never produces NUL bytes in the states considered
here, so the list length is that `strlen`): when the point is before the
mark, repeat "move right, backspace"; when it is after the mark, move
right once and then backspace repeatedly.  Finally clear the mark. -/
def cutSelectionLua (s : EState) (fuel : Nat) : Option EState :=
  let x := s.coloff + s.cx
  let y := s.rowoff + s.cy
  if s.markx = -1 ∧ s.marky = -1 then some s
  else if s.markx = x ∧ s.marky = y then some s
  else
    let left := y > s.marky ∨ (x > s.markx ∧ y = s.marky)
    match get_selection s fuel with
    | none => none
    | some sel =>
      let mx := sel.length
      let s' :=
        if ¬left then
          (List.range mx).foldl
            (fun t _ => deleteLua (editorMoveCursor Key.right t)) s
        else
          (List.range mx).foldl (fun t _ => deleteLua t)
            (editorMoveCursor Key.right s)
      some { s' with markx := -1, marky := -1 }

/-- `editorOpen` (kilua.c:483) on a successfully read file: drop all
rows, reset cursor, viewport, mark and `dirty`, store the filename, append
one row per line (the C reads lines with `getline` and strips one
trailing newline or carriage return; `lines` is the post-strip
content), and finally reset `dirty` to 0 again. -/
def editorOpen (s : EState) (fname : Option (List Char))
    (lines : List (List Char)) : EState :=
  let s1 := { s with
    rows := [], numrows := 0, dirty := 0, cx := 0, cy := 0,
    rowoff := 0, coloff := 0, markx := -1, marky := -1, filename := fname }
  let s2 := lines.foldl (fun t l => editorInsertRow t t.numrows l) s1
  { s2 with dirty := 0 }

/-- `save_lua` (kilua.c:1199): adopt the given path if any; with no
filename report success without writing; otherwise build the byte string
with `editorRowsToString` and — when the `open`/`ftruncate`/`write`
syscalls succeed, abstracted by `ok` — write exactly those bytes, reset
`dirty` to 0 and return 0; on I/O failure leave `dirty` untouched and
return 1.  The returned list is what was written to disk. -/
def saveLua (s : EState) (path : Option (List Char)) (ok : Bool) :
    EState × Int × List Char :=
  let s1 := match path with
    | some p => { s with filename := some p }
    | none => s
  match s1.filename with
  | none => (s1, 0, [])
  | some _ =>
    let bl := editorRowsToString s1
    if ok then ({ s1 with dirty := 0 }, 0, bl.1)
    else (s1, 1, [])

/-- The inner column scan of `search_lua` (kilua.c:1311, non-`_REGEXP`
branch): the first position `x` in `render`, starting from `x0`, where the
search term matches literally (`strncmp`). -/
def findInRowGo (render term : List Char) : Nat → Nat → Option Nat
  | _, 0 => none
  | x, fuel + 1 =>
    if x < render.length then
      if term.isPrefixOf (render.drop x) then some x
      else findInRowGo render term (x + 1) fuel
    else none

/-- The scan advances `x` by one per step and stops at `rsize`, so
`rsize + 1` is enough fuel from any start. -/
def findInRow (render term : List Char) (x : Nat) : Option Nat :=
  findInRowGo render term x (render.length + 1)

/-- The outer row loop of `search_lua` (kilua.c:1306): `numrows`
iterations over `current`, wrapping past the last row, scanning from
`xstart` on the first row and from column 0 afterwards.  The C indexes
`row[current]` without a bounds check; an out-of-range `current` (possible
when the cursor started past the last row) reads out of bounds in C and is
modelled as an empty row. -/
def searchLoop (s : EState) (term : List Char) : Int → Int → Nat →
    Option (Int × Nat)
  | _, _, 0 => none
  | current, xstart, n + 1 =>
    let row := rowIdx s current
    match findInRow row.render term xstart.toNat with
    | some x => some (current, x)
    | none =>
      let cur1 := current + 1
      let cur2 := if cur1 = s.numrows then 0 else cur1
      searchLoop s term cur2 0 n

/-- `search_lua` (kilua.c:1261): save the cursor, step one position right,
scan rows from the cursor with wrap-around; on a match park the match row
at the top of the screen and return the match length; otherwise restore
the four cursor/viewport fields and return 0. -/
def searchLua (s : EState) (term : List Char) : EState × Int :=
  let s1 := editorMoveCursor Key.right s
  let current := s1.cy + s1.rowoff
  match searchLoop s1 term current (s1.cx + s1.coloff) s1.numrows.toNat with
  | some (cur, x) =>
    let t := { s1 with cx := (x : Int), coloff := 0, cy := 0, rowoff := cur }
    let t2 :=
      if t.cx > t.screencols then
        let diff : Int := (t.cx - t.screencols).natAbs
        { t with cx := t.cx - diff, coloff := t.coloff + diff }
      else t
    (t2, (term.length : Int))
  | none =>
    ({ s1 with
        cx := s.cx, cy := s.cy, coloff := s.coloff, rowoff := s.rowoff }, 0)

/-! ### Concrete fixtures used by the scenario claims -/

/-- A C-like syntax configuration: no keywords, `//`, `/*`, `*/`, string
and number highlighting on. -/
def cLikeCfg : SynCfg :=
  ⟨[], "//".toList, "/*".toList, "*/".toList, true, true⟩

/-- A freshly initialised empty buffer on an 80-column terminal with 23
usable text rows, default tab size 8, no syntax. -/
def emptyBuf : EState :=
  { rows := [], numrows := 0, cx := 0, cy := 0, coloff := 0, rowoff := 0,
    markx := -1, marky := -1, dirty := 0, filename := none, syn := none,
    tab_size := 8, screenrows := 23, screencols := 80 }

/-- S2: the buffer `["hello world"]` with the cursor at (6,0) and the mark
at (11,0). -/
def s2State : EState :=
  { editorOpen emptyBuf none [("hello world").toList] with
      cx := 6, markx := 11, marky := 0 }

/-- C1, counterexample: with the mark at (11,0) the selection walk also
collects `at()` of the mark cell itself, which is the end-of-row position
of the single row, where `at()` yields a newline — the selection is
`"world\n"`, not `"world"` as the claim states. -/
theorem C1_counterexample :
    selectionLua s2State 100 = some (some ("world\n".toList)) ∧
    some (some ("world\n".toList)) ≠ some (some ("world".toList)) := by
  decide

set_option maxRecDepth 10000 in
/-- C1, amended: on `["hello world"]` with point (6,0) and mark (11,0),
`selection` returns `"world\n"` (the walk is inclusive of the mark cell,
and `at()` at the end of the row yields a newline); `cut_selection` then
deletes `strlen("world\n") = 6` bytes — the five letters and, after the
cursor can no longer move right, the space before them — leaving the
single row `"hello"`, and clears the mark to (-1,-1). -/
theorem C1_selection_and_cut :
    selectionLua s2State 100 = some (some ("world\n".toList)) ∧
    (cutSelectionLua s2State 100).map
        (fun t => (t.rows.map Erow.chars, t.markx, t.marky)) =
      some ([("hello").toList], -1, -1) := by
  decide

/-- C2, counterexample: with `tab_size = 8`, a TAB at render column 0
produces 7 spaces (the loop guard is `(idx + 1) % 8`), not 8; after a TAB
at column 3 the next character lands on column 7, not 8. -/
theorem C2_counterexample :
    renderChars 8 ['\t'] 0 = List.replicate 7 ' ' ∧
    List.replicate 7 ' ' ≠ List.replicate 8 ' ' ∧
    renderChars 8 ("abc".toList ++ '\t' :: ['x']) 0 =
      "abc".toList ++ List.replicate 4 ' ' ++ ['x'] ∧
    "abc".toList ++ List.replicate 4 ' ' ++ ['x'] ≠
      "abc".toList ++ List.replicate 5 ' ' ++ ['x'] := by
  decide

theorem tab_measure_step (T idx : Nat) (hT : 0 < T)
    (h : (idx + 1) % T ≠ 0) :
    (T - (idx + 1 + 1) % T) % T + 1 = (T - (idx + 1) % T) % T := by
  have hk : (idx + 1) % T < T := Nat.mod_lt _ hT
  have hT2 : 2 ≤ T := by
    rcases Nat.lt_or_ge T 2 with h2 | h2
    · have hT1 : T = 1 := by omega
      subst hT1
      simp [Nat.mod_one] at h
    · exact h2
  have hstep : (idx + 1 + 1) % T = ((idx + 1) % T + 1) % T := by
    conv_lhs => rw [Nat.add_mod]
    rw [Nat.mod_eq_of_lt (show 1 < T by omega)]
  rcases Nat.lt_or_ge ((idx + 1) % T + 1) T with hlt | hge
  · rw [hstep, Nat.mod_eq_of_lt hlt,
      Nat.mod_eq_of_lt (show T - ((idx + 1) % T + 1) < T by omega),
      Nat.mod_eq_of_lt (show T - (idx + 1) % T < T by omega)]
    omega
  · have hsum : (idx + 1) % T + 1 = T := by omega
    have hk1 : (idx + 1) % T = T - 1 := by omega
    rw [hstep, hsum, Nat.mod_self, Nat.sub_zero, Nat.mod_self, hk1]
    have hTT : T - (T - 1) = 1 := by omega
    rw [hTT, Nat.mod_eq_of_lt (show 1 < T by omega)]

theorem tabFillGo_length (T : Nat) (hT : 0 < T) :
    ∀ fuel idx, (T - (idx + 1) % T) % T ≤ fuel →
      (tabFillGo T fuel idx).length = (T - (idx + 1) % T) % T := by
  intro fuel
  induction fuel with
  | zero =>
    intro idx hle
    simp [tabFillGo]
    omega
  | succ fuel ih =>
    intro idx hle
    by_cases h : (idx + 1) % T = 0
    · simp [tabFillGo, h, Nat.mod_self]
    · have hstep := tab_measure_step T idx hT h
      have hle2 : (T - (idx + 1 + 1) % T) % T ≤ fuel := by omega
      simp only [tabFillGo, h, if_false, List.length_cons, ih (idx + 1) hle2]
      omega

theorem tabFill_length (T idx : Nat) (hT : 0 < T) :
    (tabFill T idx).length = (T - (idx + 1) % T) % T := by
  unfold tabFill
  exact tabFillGo_length T hT T idx (Nat.le_of_lt (Nat.mod_lt _ hT))

/-- C2, amended: `editorUpdateRow` expands a TAB at render column `c` to
one space plus `(T - (c+2) % T) % T` more, so the column after the TAB
block satisfies `(column + 1) % tab_size = 0` — tab stops sit at columns
congruent to `tab_size - 1`, one short of the `tab_size`-aligned columns
the claim names.  In particular with `tab_size = 8` a TAB at column 0
produces 7 spaces, and after a TAB at column 3 the next character lands on
column 7.  (`tabFill T i` is the spaces after the first one, emitted from
position `i = c + 1`.) -/
theorem C2_tab_expansion (T idx : Nat) (hT : 0 < T) :
    (tabFill T idx).length = (T - (idx + 1) % T) % T ∧
    (idx + (tabFill T idx).length + 1) % T = 0 ∧
    renderChars 8 ['\t'] 0 = List.replicate 7 ' ' ∧
    renderChars 8 ("abc".toList ++ '\t' :: ['x']) 0 =
      "abc".toList ++ List.replicate 4 ' ' ++ ['x'] := by
  have hlen := tabFill_length T idx hT
  refine ⟨hlen, ?_, by decide, by decide⟩
  rw [hlen]
  by_cases h : (idx + 1) % T = 0
  · rw [h, Nat.sub_zero, Nat.mod_self]
    have : idx + 0 + 1 = idx + 1 := by omega
    rw [this, h]
  · have hk : (idx + 1) % T < T := Nat.mod_lt _ hT
    have hmm : (T - (idx + 1) % T) % T = T - (idx + 1) % T :=
      Nat.mod_eq_of_lt (by omega)
    rw [hmm]
    have harr : idx + (T - (idx + 1) % T) + 1 =
        (idx + 1) + (T - (idx + 1) % T) := by omega
    rw [harr, Nat.add_mod, hmm]
    have hfull : (idx + 1) % T + (T - (idx + 1) % T) = T := by omega
    rw [hfull, Nat.mod_self]

/-- Witness for C2 at `T = 8`, `idx = 1` (a TAB at render column 0 calls
`tabFill 8 1` after its first space). -/
theorem C2_tab_expansion_witness :
    (tabFill 8 1).length = (8 - (1 + 1) % 8) % 8 ∧
    (1 + (tabFill 8 1).length + 1) % 8 = 0 ∧
    renderChars 8 ['\t'] 0 = List.replicate 7 ' ' ∧
    renderChars 8 ("abc".toList ++ '\t' :: ['x']) 0 =
      "abc".toList ++ List.replicate 4 ' ' ++ ['x'] :=
  C2_tab_expansion 8 1 (by decide)

/-- The buffer `["a", "b"]` freshly opened. -/
def abBuf : EState := editorOpen emptyBuf none [['a'], ['b']]

/-- C4: a reachable state breaking the cursor bounds.  `search("b")` on
the fresh two-row buffer parks the match row at the top of the screen
(`cy = 0`, `rowoff = 1`, `cx = coloff = 0`); one ARROW_LEFT then takes the
`filerow > 0` branch of `editorMoveCursor` and decrements `cy` to -1,
violating `0 ≤ cy`. -/
theorem C4_left_breaks_cy_bound :
    (searchLua abBuf ['b']).2 = 1 ∧
    (searchLua abBuf ['b']).1.cx = 0 ∧
    (searchLua abBuf ['b']).1.cy = 0 ∧
    (searchLua abBuf ['b']).1.coloff = 0 ∧
    (searchLua abBuf ['b']).1.rowoff = 1 ∧
    (editorMoveCursor Key.left (searchLua abBuf ['b']).1).cy = -1 ∧
    ¬(0 ≤ (editorMoveCursor Key.left (searchLua abBuf ['b']).1).cy) := by
  decide

/-- The buffer `["ab"]` with the cursor one byte in. -/
def abCursor1 : EState := { editorOpen emptyBuf none [("ab").toList] with cx := 1 }

/-- C5, counterexample: a single `delete` (backspace over the 'a' of
`"ab"`) increments `dirty` twice — once inside `editorRowDelChar` and once
at the end of `delete_lua` — not "by exactly one" as the claim states. -/
theorem C5_counterexample :
    abCursor1.dirty = 0 ∧
    (deleteLua abCursor1).dirty = 2 ∧
    (2 : Int) ≠ 0 + 1 := by
  decide

/-- S3: the three-row buffer under the C-like syntax configuration. -/
def s3Buf : EState :=
  editorOpen { emptyBuf with syn := some cLikeCfg } none
    (["/* open", "still in", "done */ code"].map String.toList)

set_option maxRecDepth 4000 in
/-- C6: on `["/* open", "still in", "done */ code"]` with C-style comment
delimiters, row 0 ends with `hl_open_comment` true, every byte of row 1 is
MLCOMMENT, and row 2 is MLCOMMENT exactly up to and including the `*/`
delimiter (bytes 0–6) with no MLCOMMENT tag afterwards.  Re-highlighting
after a row's open-comment state changes propagates: appending `" */"` to
row 0 (closing the comment there) re-highlights row 1 and, recursively,
row 2, leaving no MLCOMMENT byte on either. -/
theorem C6_open_comment_propagation :
    (s3Buf.rows.getD 0 default).hl_oc = true ∧
    (s3Buf.rows.getD 1 default).hl = List.replicate 8 Hl.mlcomment ∧
    (s3Buf.rows.getD 2 default).hl.take 7 = List.replicate 7 Hl.mlcomment ∧
    (∀ t ∈ (s3Buf.rows.getD 2 default).hl.drop 7, t ≠ Hl.mlcomment) ∧
    ((editorRowAppendString s3Buf 0 (" */".toList)).rows.getD 0 default).hl_oc
        = false ∧
    (∀ t ∈ ((editorRowAppendString s3Buf 0 (" */".toList)).rows.getD 1
        default).hl, t ≠ Hl.mlcomment) ∧
    (∀ t ∈ ((editorRowAppendString s3Buf 0 (" */".toList)).rows.getD 2
        default).hl, t ≠ Hl.mlcomment) := by
  decide

/-- The buffer `["a"]` freshly opened. -/
def aBuf : EState := editorOpen emptyBuf none [['a']]

/-- C7, counterexample: `editorRowsToString` appends a newline after
*every* row, the last included: for the single row `"a"` it returns
`"a\n"` with length 2, where the claim's separator-join (no trailing
separator) would give `"a"` with length 1. -/
theorem C7_counterexample :
    editorRowsToString aBuf = (['a', '\n'], 2) ∧
    (['a', '\n'], (2 : Int)) ≠ (['a'], (1 : Int)) := by
  decide

/-- A bare row carrying `"a+b"`, rendered, not yet highlighted. -/
def plusRow : Erow := ⟨"a+b".toList, "a+b".toList, [], false⟩

/-- C8, counterexample: in the buffer row `"a+b"` under the C-like
configuration the `'+'` reaches the final tokenizer step as a separator
byte and is tagged KEYWORD1 (kilua.c:2117), not NORMAL as the claim
states. -/
theorem C8_counterexample :
    (synRowResult cLikeCfg [plusRow] 0).hl =
      [Hl.normal, Hl.keyword1, Hl.normal] ∧
    Hl.keyword1 ≠ Hl.normal := by
  decide

/-- A row whose render ends in a backslash inside an open string:
`"a\` (quote, letter, backslash). -/
def bslashRow : Erow := ⟨['"', 'a', '\\'], ['"', 'a', '\\'], [], false⟩

/-- C10: the string-escape branch writes `hl[i + 1]` without a bound
check; on a row whose last rendered byte is a backslash inside a string it
stores at index `rsize` — one past the `hl` allocation, a heap overflow in
the C.  The write log of the scan records the out-of-bounds index 3 for
this 3-byte row. -/
theorem C10_escape_writes_past_end :
    bslashRow.render.length = 3 ∧
    (synRowResult cLikeCfg [bslashRow] 0).writes = [0, 1, 2, 3] ∧
    (synRowResult cLikeCfg [bslashRow] 0).writes.contains 3 = true := by
  decide

/-! ### Preservation lemmas: the highlighter touches only `rows` -/

theorem updateSynFromGo_erase (fuel : Nat) :
    ∀ (s : EState) (idx : Nat),
      { updateSynFromGo fuel s idx with rows := ([] : List Erow) } =
        { s with rows := ([] : List Erow) } := by
  induction fuel with
  | zero =>
    intro s idx
    unfold updateSynFromGo
    repeat' first | rfl | omega | dsimp only | split
  | succ fuel ih =>
    intro s idx
    unfold updateSynFromGo
    repeat' first | rfl | omega | exact ih _ (idx + 1) | dsimp only | split

theorem updateSynFrom_erase (s : EState) (idx : Nat) :
    { updateSynFrom s idx with rows := ([] : List Erow) } =
      { s with rows := ([] : List Erow) } :=
  updateSynFromGo_erase s.numrows.toNat s idx

theorem editorUpdateRow_erase (s : EState) (idx : Nat) :
    { editorUpdateRow s idx with rows := ([] : List Erow) } =
      { s with rows := ([] : List Erow) } := by
  unfold editorUpdateRow
  exact updateSynFrom_erase _ idx

theorem editorUpdateRow_dirty (s : EState) (idx : Nat) :
    (editorUpdateRow s idx).dirty = s.dirty := by
  exact @congrArg EState Int
    { editorUpdateRow s idx with rows := ([] : List Erow) }
    { s with rows := ([] : List Erow) } EState.dirty
    (editorUpdateRow_erase s idx)

/-- Any state agreeing with `s` on everything but `rows` is
`{ s with rows := its rows }`. -/
theorem eq_set_rows_of_erase {X s : EState}
    (h : { X with rows := ([] : List Erow) } =
      { s with rows := ([] : List Erow) }) :
    X = { s with rows := X.rows } := by
  cases X
  cases s
  simp_all only [EState.mk.injEq]

theorem editorUpdateRow_only_rows (s : EState) (idx : Nat) :
    ∃ R, editorUpdateRow s idx = { s with rows := R } :=
  ⟨_, eq_set_rows_of_erase (editorUpdateRow_erase s idx)⟩

theorem rowAt_getD {s : EState} {i : Int} {r : Erow}
    (h : rowAt s i = some r) : s.rows.getD i.toNat default = r := by
  unfold rowAt at h
  split at h
  · rw [List.get?_eq_getElem?] at h
    simp [List.getD, h]
  · exact absurd h (by simp)

/-- `editorRowDelChar` on an in-range position: only `rows` change, and
`dirty` goes up by exactly one. -/
theorem editorRowDelChar_eq (s : EState) (idx : Nat) (at_ : Int)
    (h1 : 0 ≤ at_)
    (h2 : at_ < ((s.rows.getD idx default).chars.length : Int)) :
    ∃ R, editorRowDelChar s idx at_ =
      { s with rows := R, dirty := s.dirty + 1 } := by
  unfold editorRowDelChar
  dsimp only
  rw [if_neg (by push_neg; omega)]
  obtain ⟨R, hR⟩ := editorUpdateRow_only_rows (setRow s idx
    { s.rows.getD idx default with
        chars := (s.rows.getD idx default).chars.eraseIdx at_.toNat
          ++ ['\x00'] }) idx
  simp only [setRow] at hR
  simp only [setRow, hR]
  exact ⟨_, rfl⟩

/-- `editorRowInsertChar`: only `rows` change, `dirty` up by one. -/
theorem editorRowInsertChar_eq (s : EState) (idx : Nat) (at_ : Int)
    (c : Char) :
    ∃ R, editorRowInsertChar s idx at_ c =
      { s with rows := R, dirty := s.dirty + 1 } := by
  unfold editorRowInsertChar
  dsimp only
  split
  · obtain ⟨R, hR⟩ := editorUpdateRow_only_rows (setRow s idx
      { s.rows.getD idx default with
          chars := (s.rows.getD idx default).chars ++
            List.replicate (at_ - (s.rows.getD idx default).chars.length).toNat
              ' ' ++ [c] }) idx
    simp only [setRow] at hR
    simp only [setRow, hR]
    exact ⟨_, rfl⟩
  · obtain ⟨R, hR⟩ := editorUpdateRow_only_rows (setRow s idx
      { s.rows.getD idx default with
          chars := (s.rows.getD idx default).chars.insertIdx at_.toNat c })
      idx
    simp only [setRow] at hR
    simp only [setRow, hR]
    exact ⟨_, rfl⟩

/-- `editorRowAppendString`: only `rows` change, `dirty` up by one. -/
theorem editorRowAppendString_eq (s : EState) (idx : Nat)
    (str : List Char) :
    ∃ R, editorRowAppendString s idx str =
      { s with rows := R, dirty := s.dirty + 1 } := by
  unfold editorRowAppendString
  dsimp only
  obtain ⟨R, hR⟩ := editorUpdateRow_only_rows (setRow s idx
    { s.rows.getD idx default with
        chars := (s.rows.getD idx default).chars ++ str }) idx
  simp only [setRow] at hR
  simp only [setRow, hR]
  exact ⟨_, rfl⟩

set_option maxRecDepth 4000 in
/-- C5, amended: every mutation strictly increases `dirty`, but the
compound operations layer their increments: an in-row `delete` adds
exactly 2 (`editorRowDelChar` and `delete_lua` each increment), inserting
one non-newline character on an existing row adds exactly 2
(`editorRowInsertChar` and `editorInsertChar`), while
`editorRowAppendString` adds exactly 1; a successful `save` resets `dirty`
to 0; loading a file resets `dirty` to 0. -/
theorem C5_dirty_accounting :
    (∀ s row, rowAt s (s.rowoff + s.cy) = some row →
      0 < s.coloff + s.cx → s.coloff + s.cx ≤ (row.chars.length : Int) →
      (deleteLua s).dirty = s.dirty + 2) ∧
    (∀ s c, c ≠ '\n' → rowAt s (s.rowoff + s.cy) ≠ none →
      (editorInsertChar s c).dirty = s.dirty + 2) ∧
    (∀ s idx str, (editorRowAppendString s idx str).dirty = s.dirty + 1) ∧
    (∀ s p, ((saveLua s (some p) true).1).dirty = 0) ∧
    (∀ s f lines, (editorOpen s f lines).dirty = 0) := by
  refine ⟨?_, ?_, ?_, ?_, ?_⟩
  · intro s row hrow hpos hlen
    have hget := rowAt_getD hrow
    obtain ⟨R, hR⟩ := editorRowDelChar_eq s (s.rowoff + s.cy).toNat
      (s.coloff + s.cx - 1) (by omega) (by rw [hget]; omega)
    have hne : ¬(s.coloff + s.cx = 0) := by omega
    unfold deleteLua
    simp only [hrow, hR, if_neg hne]
    rw [if_neg (by omega)]
    repeat' split
    all_goals simp only [editorUpdateRow_dirty]
    all_goals try dsimp only
    all_goals omega
  · intro s c hc hrow
    obtain ⟨R, hR⟩ := editorRowInsertChar_eq s (s.rowoff + s.cy).toNat
      (s.coloff + s.cx) c
    unfold editorInsertChar
    rw [if_neg hc]
    rcases hr : rowAt s (s.rowoff + s.cy) with _ | r
    · exact absurd hr hrow
    · simp only [hr, hR]
      split <;> (dsimp only; omega)
  · intro s idx str
    obtain ⟨R, hR⟩ := editorRowAppendString_eq s idx str
    rw [hR]
  · intro s p
    rfl
  · intro s f lines
    rfl

/-- Witness for C5 at the concrete buffer `["ab"]` with the cursor at
column 1. -/
theorem C5_dirty_accounting_witness :
    (deleteLua abCursor1).dirty = abCursor1.dirty + 2 ∧
    (editorInsertChar abCursor1 'x').dirty = abCursor1.dirty + 2 ∧
    (editorRowAppendString abCursor1 0 ['z']).dirty = abCursor1.dirty + 1 ∧
    ((saveLua abCursor1 (some ['t']) true).1).dirty = 0 ∧
    (editorOpen abCursor1 none [['q']]).dirty = 0 :=
  ⟨C5_dirty_accounting.1 abCursor1 (abCursor1.rows.getD 0 default)
      (by decide) (by decide) (by decide),
   C5_dirty_accounting.2.1 abCursor1 'x' (by decide) (by decide),
   C5_dirty_accounting.2.2.1 abCursor1 0 ['z'],
   C5_dirty_accounting.2.2.2.1 abCursor1 ['t'],
   C5_dirty_accounting.2.2.2.2 abCursor1 none [['q']]⟩

theorem rowsToString_foldl_buf (rs : List Erow) :
    ∀ acc : List Char,
      rs.foldl (fun acc r => acc ++ r.chars ++ ['\n']) acc =
        acc ++ (rs.map (fun r => r.chars ++ ['\n'])).flatten := by
  induction rs with
  | nil => intro acc; simp
  | cons r rs ih =>
    intro acc
    rw [List.foldl_cons, ih]
    simp

theorem rowsToString_foldl_len (rs : List Erow) :
    ∀ acc : Int,
      rs.foldl (fun acc r => acc + (r.chars.length : Int) + 1) acc =
        acc + (rs.map (fun r => (r.chars.length : Int) + 1)).sum := by
  induction rs with
  | nil => intro acc; simp
  | cons r rs ih =>
    intro acc
    simp only [List.foldl_cons, List.map_cons, List.sum_cons, ih]
    ring

/-- C7, amended: `editorRowsToString` produces each row's bytes followed
by a newline — a trailing newline after the last row included — and the
reported length is the sum of `size + 1` over the rows, which is exactly
the byte length of the produced string (the terminating NUL excluded);
`save` writes exactly this byte string. -/
theorem C7_rows_to_string (s : EState)
    (hn : s.numrows = (s.rows.length : Int)) :
    (editorRowsToString s).1 =
      (s.rows.map (fun r => r.chars ++ ['\n'])).flatten ∧
    (editorRowsToString s).2 =
      (s.rows.map (fun r => (r.chars.length : Int) + 1)).sum ∧
    (editorRowsToString s).2 = ((editorRowsToString s).1.length : Int) ∧
    ∀ p, (saveLua s (some p) true).2.2 = (editorRowsToString s).1 := by
  have htake : s.rows.take s.numrows.toNat = s.rows := by
    rw [hn, Int.toNat_ofNat, List.take_length]
  have hbuf : (editorRowsToString s).1 =
      (s.rows.map (fun r => r.chars ++ ['\n'])).flatten := by
    unfold editorRowsToString
    dsimp only
    rw [htake, rowsToString_foldl_buf]
    simp
  have hlen : (editorRowsToString s).2 =
      (s.rows.map (fun r => (r.chars.length : Int) + 1)).sum := by
    unfold editorRowsToString
    dsimp only
    rw [htake, rowsToString_foldl_len]
    simp
  refine ⟨hbuf, hlen, ?_, ?_⟩
  · rw [hbuf, hlen]
    induction s.rows with
    | nil => simp
    | cons r rs ih =>
      simp only [List.map_cons, List.sum_cons, List.flatten_cons,
        List.length_append, ih, List.length_singleton]
      push_cast
      ring
  · intro p
    rfl

/-- Witness for C7 at the single-row buffer `["a"]`. -/
theorem C7_rows_to_string_witness :
    (editorRowsToString aBuf).1 =
      (aBuf.rows.map (fun r => r.chars ++ ['\n'])).flatten ∧
    (editorRowsToString aBuf).2 =
      (aBuf.rows.map (fun r => (r.chars.length : Int) + 1)).sum ∧
    (editorRowsToString aBuf).2 = ((editorRowsToString aBuf).1.length : Int) ∧
    ∀ p, (saveLua aBuf (some p) true).2.2 = (editorRowsToString aBuf).1 :=
  C7_rows_to_string aBuf (by decide)

/-- C8, amended: a byte that reaches the final step of the tokenizer (the
scan continues, the byte is not NUL, no comment is open, it opens no
multi-line or single-line comment, no string is open and it opens none, it
is not part of a number, and the keyword scan does not fire) is first
tagged KEYWORD1 when it is a separator byte — and only left NORMAL (its
initialised value) otherwise — after which `prev_sep` becomes
`is_separator(byte)` and the scan moves one byte on. -/
theorem C8_fallthrough_step (cfg : SynCfg) (rsize fuel : Nat) (c : Char)
    (rest : List Char) (st : SynSt)
    (h0 : ¬c = '\x00')
    (h1 : ¬st.in_comment = true)
    (h2 : ¬(cfg.multiline_comment_start ≠ [] ∧
      cfg.multiline_comment_start.isPrefixOf (c :: rest) = true))
    (h3 : ¬(st.prev_sep = true ∧ cfg.singleline_comment_start ≠ [] ∧
      cfg.singleline_comment_start.isPrefixOf (c :: rest) = true))
    (h4 : ¬st.in_string ≠ '\x00')
    (h5 : ¬(c = '"' ∨ c = '\''))
    (h6 : ¬((csIsDigit c = true ∧ (st.prev_sep = true ∨
        st.hl.getD (st.i - 1) Hl.normal = Hl.number)) ∨
      (c = '.' ∧ 0 < st.i ∧ st.hl.getD (st.i - 1) Hl.normal = Hl.number)))
    (h7 : (if st.prev_sep = true then kwMatch cfg.keywords (c :: rest)
      else none) = none) :
    synGo cfg rsize (fuel + 1) (c :: rest) st =
      synGo cfg rsize fuel rest
        { st with
            hl := if is_separator c then st.hl.set st.i Hl.keyword1
              else st.hl,
            writes := if is_separator c then st.writes ++ [st.i]
              else st.writes,
            i := st.i + 1,
            prev_sep := is_separator c } := by
  conv_lhs => rw [synGo]
  rw [if_neg h0, if_neg h1, dif_neg h2, if_neg h3, if_neg h4, if_neg h5,
    if_neg h6]
  rw [h7]
  by_cases hsep : is_separator c = true <;>
    simp [hsep, hlW]

/-- Witness for C8: the `'+'` of `"a+b"` (the state after consuming the
`'a'`): the step tags it KEYWORD1 and sets `prev_sep`. -/
theorem C8_fallthrough_step_witness :
    synGo cLikeCfg 3 6 ('+' :: ['b'])
        { hl := [Hl.normal, Hl.normal, Hl.normal], writes := [], i := 1,
          prev_sep := false, in_string := '\x00', in_comment := false,
          early := false } =
      synGo cLikeCfg 3 5 ['b']
        { hl := if is_separator '+' then
              [Hl.normal, Hl.normal, Hl.normal].set 1 Hl.keyword1
            else [Hl.normal, Hl.normal, Hl.normal],
          writes := if is_separator '+' then ([] : List Nat) ++ [1] else [],
          i := 1 + 1,
          prev_sep := is_separator '+', in_string := '\x00',
          in_comment := false, early := false } :=
  C8_fallthrough_step cLikeCfg 3 5 '+' ['b']
    { hl := [Hl.normal, Hl.normal, Hl.normal], writes := [], i := 1,
      prev_sep := false, in_string := '\x00', in_comment := false,
      early := false }
    (by decide) (by decide) (by decide) (by decide) (by decide) (by decide)
    (by decide) (by decide)

/-! ### Search: not-found behaviour -/

/-- `term` occurs somewhere in `render` (as a literal substring, the way
the `strncmp` scan of `search_lua` can find it). -/
def occursIn (term render : List Char) : Bool :=
  (List.range (render.length + 1)).any
    (fun k => term.isPrefixOf (render.drop k))

theorem isPrefixOf_nil_eq {term : List Char}
    (h : term.isPrefixOf ([] : List Char) = true) : term = [] := by
  cases term with
  | nil => rfl
  | cons a t => simp [List.isPrefixOf] at h

theorem occursIn_false_all {term render : List Char}
    (h : occursIn term render = false) :
    ∀ k, term.isPrefixOf (render.drop k) = false := by
  intro k
  by_contra hk
  rw [Bool.not_eq_false] at hk
  rcases Nat.lt_or_ge k (render.length + 1) with hlt | hge
  · unfold occursIn at h
    rw [List.any_eq_false] at h
    exact absurd hk (by simpa using h k (List.mem_range.mpr hlt))
  · have hdrop : render.drop k = [] :=
      List.drop_eq_nil_of_le (by omega)
    rw [hdrop] at hk
    have ht := isPrefixOf_nil_eq hk
    unfold occursIn at h
    rw [List.any_eq_false] at h
    have h0 := h 0 (List.mem_range.mpr (by omega))
    simp [ht, List.isPrefixOf] at h0

theorem findInRowGo_none {render term : List Char}
    (h : ∀ k, term.isPrefixOf (render.drop k) = false) :
    ∀ fuel x, findInRowGo render term x fuel = none := by
  intro fuel
  induction fuel with
  | zero => intro x; rfl
  | succ fuel ih =>
    intro x
    unfold findInRowGo
    by_cases hx : x < render.length
    · rw [if_pos hx, if_neg (by rw [h x]; simp), ih]
    · rw [if_neg hx]

theorem findInRowGo_nil (term : List Char) :
    ∀ fuel x, findInRowGo ([] : List Char) term x fuel = none := by
  intro fuel x
  cases fuel with
  | zero => rfl
  | succ fuel =>
    unfold findInRowGo
    rw [if_neg (by simp)]

theorem rowIdx_mem_or_default (s : EState) (i : Int) :
    rowIdx s i ∈ s.rows ∨ rowIdx s i = default := by
  unfold rowIdx
  split
  · rcases Nat.lt_or_ge i.toNat s.rows.length with hlt | hge
    · left
      rw [List.getD_eq_getElem?_getD, List.getElem?_eq_getElem hlt]
      simp only [Option.getD_some]
      exact List.getElem_mem hlt
    · right
      exact List.getD_eq_default _ _ hge
  · right
    rfl

theorem searchLoop_none (s : EState) (term : List Char)
    (h : ∀ r ∈ s.rows, occursIn term r.render = false) :
    ∀ n cur xs, searchLoop s term cur xs n = none := by
  intro n
  induction n with
  | zero => intro cur xs; rfl
  | succ n ih =>
    intro cur xs
    unfold searchLoop
    dsimp only
    have hrow : findInRow (rowIdx s cur).render term xs.toNat = none := by
      rcases rowIdx_mem_or_default s cur with hm | hd
      · exact findInRowGo_none (occursIn_false_all (h _ hm)) _ _
      · rw [hd]
        exact findInRowGo_nil term _ _
    rw [hrow]
    exact ih _ _

/-- `editorMoveCursor` changes only the four cursor/viewport fields. -/
theorem editorMoveCursor_erase (k : Key) (s : EState) :
    { editorMoveCursor k s with
        cx := 0, cy := 0, coloff := 0, rowoff := 0 } =
      { s with cx := 0, cy := 0, coloff := 0, rowoff := 0 } := by
  unfold editorMoveCursor mcClamp
  cases k <;> (dsimp only; repeat' first | rfl | split | dsimp only)

theorem editorMoveCursor_rows (k : Key) (s : EState) :
    (editorMoveCursor k s).rows = s.rows := by
  exact @congrArg EState (List Erow)
    { editorMoveCursor k s with cx := 0, cy := 0, coloff := 0, rowoff := 0 }
    { s with cx := 0, cy := 0, coloff := 0, rowoff := 0 }
    EState.rows (editorMoveCursor_erase k s)

theorem editorMoveCursor_dirty (k : Key) (s : EState) :
    (editorMoveCursor k s).dirty = s.dirty := by
  exact @congrArg EState Int
    { editorMoveCursor k s with cx := 0, cy := 0, coloff := 0, rowoff := 0 }
    { s with cx := 0, cy := 0, coloff := 0, rowoff := 0 }
    EState.dirty (editorMoveCursor_erase k s)

/-- C9: when the pattern occurs in no row's render, `search_lua` returns 0
and restores the cursor and viewport (`cx`, `cy`, `coloff`, `rowoff`)
exactly; the buffer contents and the dirty counter are untouched. -/
theorem C9_search_not_found (s : EState) (term : List Char)
    (h : ∀ r ∈ s.rows, occursIn term r.render = false) :
    (searchLua s term).2 = 0 ∧
    (searchLua s term).1.cx = s.cx ∧
    (searchLua s term).1.cy = s.cy ∧
    (searchLua s term).1.coloff = s.coloff ∧
    (searchLua s term).1.rowoff = s.rowoff ∧
    (searchLua s term).1.rows = s.rows ∧
    (searchLua s term).1.dirty = s.dirty := by
  have hloop := searchLoop_none (editorMoveCursor Key.right s) term
    (by rw [editorMoveCursor_rows]; exact h)
  unfold searchLua
  dsimp only
  rw [hloop]
  refine ⟨rfl, rfl, rfl, rfl, rfl, ?_, ?_⟩
  · exact editorMoveCursor_rows Key.right s
  · exact editorMoveCursor_dirty Key.right s

/-- Witness for C9: searching the absent pattern `"zq"` in `["a", "b"]`
restores the cursor and returns 0. -/
theorem C9_search_not_found_witness :
    (searchLua abBuf ['z', 'q']).2 = 0 ∧
    (searchLua abBuf ['z', 'q']).1.cx = abBuf.cx ∧
    (searchLua abBuf ['z', 'q']).1.cy = abBuf.cy ∧
    (searchLua abBuf ['z', 'q']).1.coloff = abBuf.coloff ∧
    (searchLua abBuf ['z', 'q']).1.rowoff = abBuf.rowoff ∧
    (searchLua abBuf ['z', 'q']).1.rows = abBuf.rows ∧
    (searchLua abBuf ['z', 'q']).1.dirty = abBuf.dirty :=
  C9_search_not_found abBuf ['z', 'q'] (by decide)

/-! ### Selection symmetry (C3): positions in document order -/

/-- The raw length (`size`) of row `y`. -/
def rowLen (rows : List Erow) (y : Nat) : Nat :=
  (rows.getD y default).chars.length

/-- A cursor position `(x, y)` the editor can stand on: the row exists
and the column is at most the row length (the end-of-row cell included,
as the source allows). -/
def ValidPos (rows : List Erow) (p : Nat × Nat) : Prop :=
  p.2 < rows.length ∧ p.1 ≤ rowLen rows p.2

/-- Document-order index of a position: every row above contributes its
length plus one (for the end-of-row cell). -/
def docIdx (rows : List Erow) (p : Nat × Nat) : Nat :=
  ((List.range p.2).map (fun y => rowLen rows y + 1)).sum + p.1

/-- Document-order successor (the position one ARROW_RIGHT reaches). -/
def succPos (rows : List Erow) (p : Nat × Nat) : Nat × Nat :=
  if p.1 < rowLen rows p.2 then (p.1 + 1, p.2) else (0, p.2 + 1)

/-- Document-order predecessor (the position one ARROW_LEFT reaches). -/
def predPos (rows : List Erow) (p : Nat × Nat) : Nat × Nat :=
  if 0 < p.1 then (p.1 - 1, p.2) else (rowLen rows (p.2 - 1), p.2 - 1)

/-- The byte `at()` reads at a position (the cursor model with
`coloff = 0`): the rendered byte, or a newline at or past the end of the
rendered row. -/
def atPos (rows : List Erow) (p : Nat × Nat) : Char :=
  let r := rows.getD p.2 default
  if p.1 < r.render.length then r.render.getD p.1 '\n' else '\n'

/-- The `n` positions starting at `p` in document order. -/
def posSeq (rows : List Erow) : Nat → (Nat × Nat) → List (Nat × Nat)
  | 0, _ => []
  | n + 1, p => p :: posSeq rows n (succPos rows p)

/-- The `n` positions starting at `p` in reverse document order. -/
def descSeq (rows : List Erow) : Nat → (Nat × Nat) → List (Nat × Nat)
  | 0, _ => []
  | n + 1, p => p :: descSeq rows n (predPos rows p)

/-- `n`-fold predecessor. -/
def predIter (rows : List Erow) : Nat → (Nat × Nat) → (Nat × Nat)
  | 0, p => p
  | n + 1, p => predIter rows n (predPos rows p)

theorem sum_range_map_mono (f : Nat → Nat) {m n : Nat} (h : m ≤ n) :
    ((List.range m).map f).sum ≤ ((List.range n).map f).sum := by
  induction n with
  | zero =>
    have : m = 0 := by omega
    subst this
    exact le_refl _
  | succ n ih =>
    rcases Nat.lt_or_ge m (n + 1) with hlt | hge
    · have h1 := ih (by omega)
      rw [List.range_succ, List.map_append, List.sum_append]
      simp only [List.map_cons, List.map_nil, List.sum_cons, List.sum_nil]
      omega
    · have : m = n + 1 := by omega
      subst this
      exact le_refl _

theorem docIdx_row_bound (rows : List Erow) (p : Nat × Nat)
    (hv : ValidPos rows p) :
    docIdx rows p <
      ((List.range (p.2 + 1)).map (fun y => rowLen rows y + 1)).sum := by
  unfold docIdx
  rw [List.range_succ, List.map_append, List.sum_append]
  simp only [List.map_cons, List.map_nil, List.sum_cons, List.sum_nil]
  have := hv.2
  omega

theorem docIdx_lt_of_row_lt (rows : List Erow) (p q : Nat × Nat)
    (hv : ValidPos rows p) (h : p.2 < q.2) :
    docIdx rows p < docIdx rows q := by
  have h1 := docIdx_row_bound rows p hv
  have h2 : ((List.range (p.2 + 1)).map (fun y => rowLen rows y + 1)).sum ≤
      ((List.range q.2).map (fun y => rowLen rows y + 1)).sum :=
    sum_range_map_mono _ (by omega)
  unfold docIdx at h1 ⊢
  omega

theorem docIdx_lt_of_lt (rows : List Erow) (p q : Nat × Nat)
    (hv : ValidPos rows p)
    (h : p.2 < q.2 ∨ (p.2 = q.2 ∧ p.1 < q.1)) :
    docIdx rows p < docIdx rows q := by
  rcases h with h | ⟨h2, h1⟩
  · exact docIdx_lt_of_row_lt rows p q hv h
  · unfold docIdx
    rw [h2]
    omega

theorem docIdx_inj (rows : List Erow) (p q : Nat × Nat)
    (hvp : ValidPos rows p) (hvq : ValidPos rows q)
    (h : docIdx rows p = docIdx rows q) : p = q := by
  rcases Nat.lt_trichotomy p.2 q.2 with hy | hy | hy
  · exact absurd h
      (Nat.ne_of_lt (docIdx_lt_of_row_lt rows p q hvp hy))
  · have hx : p.1 = q.1 := by
      unfold docIdx at h
      rw [hy] at h
      omega
    exact Prod.ext hx hy
  · exact absurd h.symm
      (Nat.ne_of_lt (docIdx_lt_of_row_lt rows q p hvq hy))

theorem succPos_spec (rows : List Erow) (p : Nat × Nat)
    (hv : ValidPos rows p)
    (hnext : p.1 < rowLen rows p.2 ∨ p.2 + 1 < rows.length) :
    ValidPos rows (succPos rows p) ∧
      docIdx rows (succPos rows p) = docIdx rows p + 1 := by
  unfold succPos
  by_cases h : p.1 < rowLen rows p.2
  · rw [if_pos h]
    refine ⟨⟨hv.1, by simpa using h⟩, ?_⟩
    unfold docIdx
    dsimp only
    omega
  · rw [if_neg h]
    have hx : p.1 = rowLen rows p.2 := by
      have := hv.2
      omega
    have hy : p.2 + 1 < rows.length := by
      rcases hnext with hc | hc
      · exact absurd hc h
      · exact hc
    refine ⟨⟨hy, by simp⟩, ?_⟩
    unfold docIdx
    rw [List.range_succ, List.map_append, List.sum_append]
    simp only [List.map_cons, List.map_nil, List.sum_cons, List.sum_nil]
    omega

theorem sum_range_map_succ_ge (g : Nat → Nat) (n : Nat) :
    n ≤ ((List.range n).map (fun y => g y + 1)).sum := by
  induction n with
  | zero => simp
  | succ n ih =>
    rw [List.range_succ, List.map_append, List.sum_append]
    simp only [List.map_cons, List.map_nil, List.sum_cons, List.sum_nil]
    omega

theorem docIdx_zero_iff (rows : List Erow) (p : Nat × Nat) :
    docIdx rows p = 0 ↔ p.1 = 0 ∧ p.2 = 0 := by
  constructor
  · intro h
    unfold docIdx at h
    have h2 := sum_range_map_succ_ge (fun y => rowLen rows y) p.2
    constructor
    · omega
    · omega
  · intro ⟨h1, h2⟩
    unfold docIdx
    rw [h1, h2]
    simp

theorem predPos_spec (rows : List Erow) (p : Nat × Nat)
    (hv : ValidPos rows p) (h0 : 0 < docIdx rows p) :
    ValidPos rows (predPos rows p) ∧
      docIdx rows (predPos rows p) + 1 = docIdx rows p := by
  obtain ⟨hv1, hv2⟩ := hv
  unfold predPos
  by_cases h : 0 < p.1
  · rw [if_pos h]
    refine ⟨⟨hv1, by simp; omega⟩, ?_⟩
    unfold docIdx
    simp only
    omega
  · rw [if_neg h]
    have hx : p.1 = 0 := by omega
    have hy : 0 < p.2 := by
      by_contra hy
      have hz : p.1 = 0 ∧ p.2 = 0 := ⟨hx, by omega⟩
      rw [← docIdx_zero_iff rows p] at hz
      omega
    refine ⟨⟨by simp; omega, by simp⟩, ?_⟩
    unfold docIdx
    simp only
    have hsplit : ((List.range p.2).map (fun y => rowLen rows y + 1)).sum =
        ((List.range (p.2 - 1)).map (fun y => rowLen rows y + 1)).sum +
          (rowLen rows (p.2 - 1) + 1) := by
      conv_lhs => rw [show p.2 = (p.2 - 1) + 1 by omega]
      rw [List.range_succ, List.map_append, List.sum_append]
      simp
    rw [hsplit]
    omega

theorem predPos_succPos (rows : List Erow) (p : Nat × Nat)
    (hv : ValidPos rows p) :
    predPos rows (succPos rows p) = p := by
  unfold succPos
  by_cases h : p.1 < rowLen rows p.2
  · rw [if_pos h]
    unfold predPos
    simp
  · rw [if_neg h]
    have hx : p.1 = rowLen rows p.2 := by
      have := hv.2
      omega
    unfold predPos
    dsimp only
    rw [if_neg (by omega)]
    simp only [Nat.add_sub_cancel]
    exact Prod.ext hx.symm rfl

/-- `n`-fold successor. -/
def succIter (rows : List Erow) : Nat → (Nat × Nat) → (Nat × Nat)
  | 0, p => p
  | n + 1, p => succPos rows (succIter rows n p)

/-- Invariant tying an editor state to an abstract cursor position of an
on-screen buffer: the viewport is not scrolled horizontally, the point is
`p`, the mark is at `(mx, my)`, and every row fits on the screen. -/
structure SelInv (rows : List Erow) (mx my : Int) (p : Nat × Nat)
    (s : EState) : Prop where
  hrows : s.rows = rows
  hnum : s.numrows = (rows.length : Int)
  hco : s.coloff = 0
  hcx : s.cx = (p.1 : Int)
  hpos : s.rowoff + s.cy = (p.2 : Int)
  hmx : s.markx = mx
  hmy : s.marky = my
  hfit : ∀ r ∈ rows, (r.chars.length : Int) < s.screencols

theorem rowAt_nat (s : EState) (y : Nat) (h1 : y < s.rows.length)
    (h2 : (y : Int) < s.numrows) :
    rowAt s (y : Int) = some (s.rows.getD y default) := by
  unfold rowAt
  rw [if_pos ⟨Int.natCast_nonneg y, h2⟩, Int.toNat_natCast,
    List.get?_eq_getElem?, List.getElem?_eq_getElem h1,
    List.getD_eq_getElem?_getD, List.getElem?_eq_getElem h1]
  rfl

theorem rowIdx_nat (s : EState) (y : Nat) :
    rowIdx s (y : Int) = s.rows.getD y default := by
  unfold rowIdx
  rw [if_pos (Int.natCast_nonneg y), Int.toNat_natCast]

theorem rowAt_congr (s t : EState) (i : Int) (h1 : s.rows = t.rows)
    (h2 : s.numrows = t.numrows) : rowAt s i = rowAt t i := by
  unfold rowAt
  rw [h1, h2]

theorem rowAt_inv (rows : List Erow) (mx my : Int) (p : Nat × Nat)
    (s : EState) (hinv : SelInv rows mx my p s) (hv1 : p.2 < rows.length) :
    rowAt s (s.rowoff + s.cy) = some (rows.getD p.2 default) := by
  obtain ⟨hrows, hnum, hco, hcx, hpos, hmx, hmy, hfit⟩ := hinv
  rw [hpos, rowAt_nat s p.2 (by rw [hrows]; exact hv1)
    (by rw [hnum]; exact_mod_cast hv1), hrows]

/-- Under the invariant, the stop test of the `get_selection` walk fires
exactly when the point is on the mark. -/
theorem selStop_iff (rows : List Erow) (A q : Nat × Nat) (s : EState)
    (hinv : SelInv rows (A.1 : Int) (A.2 : Int) q s) :
    ((s.coloff + s.cx = s.markx ∧ s.rowoff + s.cy = s.marky) ↔ q = A) := by
  obtain ⟨hrows, hnum, hco, hcx, hpos, hmx, hmy, hfit⟩ := hinv
  rw [hco, hcx, hpos, hmx, hmy]
  constructor
  · rintro ⟨h1, h2⟩
    have e1 : q.1 = A.1 := by omega
    have e2 : q.2 = A.2 := by omega
    exact Prod.ext e1 e2
  · rintro rfl
    exact ⟨by omega, rfl⟩

/-- Under the invariant, `at()` reads the abstract byte of the point. -/
theorem atPoint_eq (rows : List Erow) (mx my : Int) (p : Nat × Nat)
    (s : EState) (hinv : SelInv rows mx my p s) (hv : ValidPos rows p) :
    atPoint s = atPos rows p := by
  have hr := rowAt_inv rows mx my p s hinv hv.1
  obtain ⟨hrows, hnum, hco, hcx, hpos, hmx, hmy, hfit⟩ := hinv
  unfold atPoint
  dsimp only
  rw [hr]
  dsimp only
  unfold atPos
  dsimp only
  rw [hcx]
  by_cases h : p.1 < (rows.getD p.2 default).render.length
  · rw [if_pos ⟨Int.natCast_nonneg _, by exact_mod_cast h⟩, if_pos h,
      Int.toNat_natCast]
  · rw [if_neg ?_, if_neg h]
    rintro ⟨-, hlt⟩
    exact h (by exact_mod_cast hlt)

/-- The end-of-motion clamp does nothing when the file column is within
the current row. -/
theorem mcClamp_noop (s1 : EState) (r : Erow)
    (hr : rowAt s1 (s1.rowoff + s1.cy) = some r)
    (hle : s1.coloff + s1.cx ≤ (r.chars.length : Int)) :
    mcClamp s1 = s1 := by
  unfold mcClamp
  dsimp only
  rw [hr]
  rw [if_neg (not_lt.mpr hle)]

/-- A position strictly before another valid position is not the very
last position of the buffer. -/
theorem valid_not_last (rows : List Erow) (p A : Nat × Nat)
    (hp : ValidPos rows p) (hA : ValidPos rows A)
    (h : docIdx rows p < docIdx rows A) :
    p.1 < rowLen rows p.2 ∨ p.2 + 1 < rows.length := by
  by_contra hcon
  push_neg at hcon
  obtain ⟨h1, h2⟩ := hcon
  have hx : p.1 = rowLen rows p.2 := by
    have := hp.2
    omega
  have hy : A.2 ≤ p.2 := by
    have := hA.1
    omega
  have hle : docIdx rows A ≤ docIdx rows p := by
    rcases Nat.lt_or_eq_of_le hy with hlt | heq
    · exact le_of_lt (docIdx_lt_of_row_lt rows A p hA hlt)
    · have hA2 := hA.2
      rw [heq] at hA2
      unfold docIdx
      rw [heq]
      omega
  omega

theorem succPos_predPos (rows : List Erow) (p : Nat × Nat)
    (hv : ValidPos rows p) (h0 : 0 < docIdx rows p) :
    succPos rows (predPos rows p) = p := by
  unfold predPos
  by_cases h : 0 < p.1
  · rw [if_pos h]
    unfold succPos
    dsimp only
    rw [if_pos (show p.1 - 1 < rowLen rows p.2 by have := hv.2; omega)]
    exact Prod.ext (by omega) rfl
  · rw [if_neg h]
    have hx : p.1 = 0 := by omega
    have hy : 0 < p.2 := by
      by_contra hy
      have hz : docIdx rows p = 0 := (docIdx_zero_iff rows p).mpr ⟨hx, by omega⟩
      omega
    unfold succPos
    dsimp only
    rw [if_neg (by omega)]
    exact Prod.ext hx.symm (by omega)

theorem succIter_succ (rows : List Erow) (n : Nat) (p : Nat × Nat) :
    succIter rows n (succPos rows p) = succPos rows (succIter rows n p) := by
  induction n generalizing p with
  | zero => rfl
  | succ n ih =>
    show succPos rows (succIter rows n (succPos rows p)) = _
    rw [ih]
    rfl

theorem posSeq_snoc (rows : List Erow) (n : Nat) (p : Nat × Nat) :
    posSeq rows (n + 1) p = posSeq rows n p ++ [succIter rows n p] := by
  induction n generalizing p with
  | zero => rfl
  | succ n ih =>
    show p :: posSeq rows (n + 1) (succPos rows p) = _
    rw [ih, succIter_succ]
    rfl

theorem predIter_spec (rows : List Erow) (n : Nat) (p : Nat × Nat)
    (hv : ValidPos rows p) (hn : n ≤ docIdx rows p) :
    ValidPos rows (predIter rows n p) ∧
      docIdx rows (predIter rows n p) + n = docIdx rows p := by
  induction n generalizing p with
  | zero => exact ⟨hv, rfl⟩
  | succ n ih =>
    have h0 : 0 < docIdx rows p := by omega
    have hps := predPos_spec rows p hv h0
    have hih := ih (predPos rows p) hps.1 (by omega)
    show ValidPos rows (predIter rows n (predPos rows p)) ∧
      docIdx rows (predIter rows n (predPos rows p)) + (n + 1) =
        docIdx rows p
    exact ⟨hih.1, by have := hih.2; have := hps.2; omega⟩

theorem succIter_predIter (rows : List Erow) (n : Nat) (p : Nat × Nat)
    (hv : ValidPos rows p) (hn : n ≤ docIdx rows p) :
    succIter rows n (predIter rows n p) = p := by
  induction n generalizing p with
  | zero => rfl
  | succ n ih =>
    have h0 : 0 < docIdx rows p := by omega
    have hps := predPos_spec rows p hv h0
    have heq := ih (predPos rows p) hps.1 (by have := hps.2; omega)
    show succPos rows (succIter rows n (predIter rows n (predPos rows p))) = p
    rw [heq]
    exact succPos_predPos rows p hv h0

/-- The descending walk of length `n + 1` from `p` visits, in reverse,
the same positions as the ascending walk of length `n + 1` that ends at
`p`. -/
theorem descSeq_eq_posSeq (rows : List Erow) (n : Nat) (p : Nat × Nat)
    (hv : ValidPos rows p) (hn : n ≤ docIdx rows p) :
    descSeq rows (n + 1) p =
      (posSeq rows (n + 1) (predIter rows n p)).reverse := by
  induction n generalizing p with
  | zero => rfl
  | succ n ih =>
    have h0 : 0 < docIdx rows p := by omega
    have hps := predPos_spec rows p hv h0
    have hih := ih (predPos rows p) hps.1 (by have := hps.2; omega)
    rw [show descSeq rows (n + 1 + 1) p =
      p :: descSeq rows (n + 1) (predPos rows p) from rfl]
    rw [hih]
    rw [posSeq_snoc rows (n + 1) (predIter rows (n + 1) p),
      succIter_predIter rows (n + 1) p hv (by omega),
      List.reverse_append]
    simp only [List.reverse_cons, List.reverse_nil, List.nil_append,
      List.singleton_append]
    rfl


/-- ARROW_RIGHT from a valid, non-final position of an on-screen buffer
moves the point to its document-order successor and keeps the
invariant. -/
theorem moveRight_step (rows : List Erow) (mx my : Int) (p : Nat × Nat)
    (s : EState) (hinv : SelInv rows mx my p s) (hv : ValidPos rows p)
    (hnext : p.1 < rowLen rows p.2 ∨ p.2 + 1 < rows.length) :
    SelInv rows mx my (succPos rows p) (editorMoveCursor Key.right s) := by
  have hr := rowAt_inv rows mx my p s hinv hv.1
  obtain ⟨hrows, hnum, hco, hcx, hpos, hmx, hmy, hfit⟩ := hinv
  obtain ⟨hv1, hv2⟩ := hv
  have hlen : s.rows.length = rows.length := by rw [hrows]
  have hmem : rows.getD p.2 default ∈ rows := by
    rw [List.getD_eq_getElem?_getD, List.getElem?_eq_getElem hv1]
    simp only [Option.getD_some]
    exact List.getElem_mem hv1
  have hfitrow : ((rows.getD p.2 default).chars.length : Int) < s.screencols :=
    hfit _ hmem
  unfold editorMoveCursor
  dsimp only
  rw [hr]
  dsimp only
  by_cases hc : p.1 < rowLen rows p.2
  · -- mid-row: cx := cx + 1
    unfold rowLen at hc
    rw [if_pos (show s.coloff + s.cx <
        ((rows.getD p.2 default).chars.length : Int) by
      rw [hco, hcx]; omega)]
    rw [if_neg (show ¬ s.cx = s.screencols - 1 by rw [hcx]; omega)]
    have hrL : rowAt ({ s with cx := s.cx + 1 } : EState)
        (s.rowoff + s.cy) = some (rows.getD p.2 default) :=
      (rowAt_congr _ s _ rfl rfl).trans hr
    rw [mcClamp_noop ({ s with cx := s.cx + 1 } : EState)
      (rows.getD p.2 default) hrL
      (show s.coloff + (s.cx + 1) ≤
          ((rows.getD p.2 default).chars.length : Int) by
        rw [hco, hcx]; omega)]
    unfold succPos
    rw [if_pos (show p.1 < rowLen rows p.2 by unfold rowLen; omega)]
    refine ⟨hrows, hnum, hco, ?_, hpos, hmx, hmy, hfit⟩
    show s.cx + 1 = ((p.1 + 1 : Nat) : Int)
    rw [hcx]
    push_cast
    ring
  · -- end of row: to column 0 of the next row
    have hx1 : p.1 = rowLen rows p.2 := by omega
    unfold rowLen at hx1
    have hy : p.2 + 1 < rows.length := by
      rcases hnext with h | h
      · exact absurd h hc
      · exact h
    rw [if_neg (show ¬ s.coloff + s.cx <
        ((rows.getD p.2 default).chars.length : Int) by
      rw [hco, hcx]; omega)]
    rw [if_pos (show s.coloff + s.cx =
        ((rows.getD p.2 default).chars.length : Int) by
      rw [hco, hcx]; omega)]
    unfold succPos
    rw [if_neg hc]
    by_cases hcy : s.cy = s.screenrows - 1
    · rw [if_pos hcy]
      have hr2 : rowAt
          ({ s with cx := 0, coloff := 0, rowoff := s.rowoff + 1 } : EState)
          (s.rowoff + 1 + s.cy) = some (rows.getD (p.2 + 1) default) := by
        refine (rowAt_congr _ s _ rfl rfl).trans ?_
        rw [show s.rowoff + 1 + s.cy = ((p.2 + 1 : Nat) : Int) by omega,
          rowAt_nat s (p.2 + 1) (by omega)
            (by rw [hnum]; exact_mod_cast hy),
          hrows]
      rw [mcClamp_noop
        ({ s with cx := 0, coloff := 0, rowoff := s.rowoff + 1 } : EState)
        (rows.getD (p.2 + 1) default) hr2
        (show (0 : Int) + 0 ≤
            ((rows.getD (p.2 + 1) default).chars.length : Int) by omega)]
      refine ⟨hrows, hnum, rfl, ?_, ?_, hmx, hmy, hfit⟩
      · show (0 : Int) = ((0 : Nat) : Int)
        rfl
      · show s.rowoff + 1 + s.cy = ((p.2 + 1 : Nat) : Int)
        omega
    · rw [if_neg hcy]
      rw [if_pos (show s.rowoff + s.cy < s.numrows - 1 by
        rw [hpos, hnum]; omega)]
      have hr2 : rowAt
          ({ s with cx := 0, coloff := 0, cy := s.cy + 1 } : EState)
          (s.rowoff + (s.cy + 1)) = some (rows.getD (p.2 + 1) default) := by
        refine (rowAt_congr _ s _ rfl rfl).trans ?_
        rw [show s.rowoff + (s.cy + 1) = ((p.2 + 1 : Nat) : Int) by omega,
          rowAt_nat s (p.2 + 1) (by omega)
            (by rw [hnum]; exact_mod_cast hy),
          hrows]
      rw [mcClamp_noop
        ({ s with cx := 0, coloff := 0, cy := s.cy + 1 } : EState)
        (rows.getD (p.2 + 1) default) hr2
        (show (0 : Int) + 0 ≤
            ((rows.getD (p.2 + 1) default).chars.length : Int) by omega)]
      refine ⟨hrows, hnum, rfl, ?_, ?_, hmx, hmy, hfit⟩
      · show (0 : Int) = ((0 : Nat) : Int)
        rfl
      · show s.rowoff + (s.cy + 1) = ((p.2 + 1 : Nat) : Int)
        omega

/-- ARROW_LEFT from a valid position other than the buffer start moves
the point to its document-order predecessor and keeps the invariant. -/
theorem moveLeft_step (rows : List Erow) (mx my : Int) (p : Nat × Nat)
    (s : EState) (hinv : SelInv rows mx my p s) (hv : ValidPos rows p)
    (h0 : 0 < docIdx rows p) :
    SelInv rows mx my (predPos rows p) (editorMoveCursor Key.left s) := by
  have hr := rowAt_inv rows mx my p s hinv hv.1
  obtain ⟨hrows, hnum, hco, hcx, hpos, hmx, hmy, hfit⟩ := hinv
  obtain ⟨hv1, hv2⟩ := hv
  have hlen : s.rows.length = rows.length := by rw [hrows]
  unfold editorMoveCursor
  dsimp only
  by_cases hx : 0 < p.1
  · -- mid-row: cx := cx - 1
    rw [if_neg (show ¬ s.cx = 0 by rw [hcx]; omega)]
    have hrL : rowAt ({ s with cx := s.cx - 1 } : EState)
        (s.rowoff + s.cy) = some (rows.getD p.2 default) :=
      (rowAt_congr _ s _ rfl rfl).trans hr
    rw [mcClamp_noop ({ s with cx := s.cx - 1 } : EState)
      (rows.getD p.2 default) hrL
      (show s.coloff + (s.cx - 1) ≤
          ((rows.getD p.2 default).chars.length : Int) by
        rw [hco, hcx]
        unfold rowLen at hv2
        omega)]
    unfold predPos
    rw [if_pos hx]
    refine ⟨hrows, hnum, hco, ?_, hpos, hmx, hmy, hfit⟩
    show s.cx - 1 = ((p.1 - 1 : Nat) : Int)
    rw [hcx]
    omega
  · -- column 0: to the end of the previous row
    have hx0 : p.1 = 0 := by omega
    have hy2 : 0 < p.2 := by
      by_contra hy
      have hz : docIdx rows p = 0 :=
        (docIdx_zero_iff rows p).mpr ⟨hx0, by omega⟩
      omega
    rw [if_pos (show s.cx = 0 by rw [hcx, hx0]; rfl)]
    rw [if_neg (show ¬ s.coloff ≠ 0 from not_not_intro hco)]
    rw [if_pos (show s.rowoff + s.cy > 0 by rw [hpos]; exact_mod_cast hy2)]
    have hri : rowIdx s (s.rowoff + s.cy - 1) =
        rows.getD (p.2 - 1) default := by
      rw [show s.rowoff + s.cy - 1 = ((p.2 - 1 : Nat) : Int) by omega,
        rowIdx_nat, hrows]
    rw [hri]
    have hmem2 : rows.getD (p.2 - 1) default ∈ rows := by
      rw [List.getD_eq_getElem?_getD,
        List.getElem?_eq_getElem (show p.2 - 1 < rows.length by omega)]
      simp only [Option.getD_some]
      exact List.getElem_mem (by omega)
    have hfit2 : ((rows.getD (p.2 - 1) default).chars.length : Int) <
        s.screencols := hfit _ hmem2
    rw [if_neg (show ¬ ({ s with
        cy := s.cy - 1,
        cx := ((rows.getD (p.2 - 1) default).chars.length : Int) } :
          EState).cx > s.screencols - 1 by
      show ¬ ((rows.getD (p.2 - 1) default).chars.length : Int) >
        s.screencols - 1
      omega)]
    have hr2 : rowAt ({ s with
        cy := s.cy - 1,
        cx := ((rows.getD (p.2 - 1) default).chars.length : Int) } : EState)
        (s.rowoff + (s.cy - 1)) = some (rows.getD (p.2 - 1) default) := by
      refine (rowAt_congr _ s _ rfl rfl).trans ?_
      rw [show s.rowoff + (s.cy - 1) = ((p.2 - 1 : Nat) : Int) by omega,
        rowAt_nat s (p.2 - 1) (by omega)
          (by rw [hnum]; push_cast; omega),
        hrows]
    rw [mcClamp_noop ({ s with
        cy := s.cy - 1,
        cx := ((rows.getD (p.2 - 1) default).chars.length : Int) } : EState)
      (rows.getD (p.2 - 1) default) hr2
      (show s.coloff +
          ((rows.getD (p.2 - 1) default).chars.length : Int) ≤
          ((rows.getD (p.2 - 1) default).chars.length : Int) by
        rw [hco]; omega)]
    unfold predPos
    rw [if_neg hx]
    refine ⟨hrows, hnum, hco, ?_, ?_, hmx, hmy, hfit⟩
    · show ((rows.getD (p.2 - 1) default).chars.length : Int) =
        ((rowLen rows (p.2 - 1) : Nat) : Int)
      unfold rowLen
      rfl
    · show s.rowoff + (s.cy - 1) = ((p.2 - 1 : Nat) : Int)
      omega


/-- The rightward `get_selection` walk from a point strictly before the
mark collects exactly the document-order bytes from the point to the
mark, both included. -/
theorem selGoRight (rows : List Erow) (A : Nat × Nat) (hA : ValidPos rows A) :
    ∀ fuel p s acc, SelInv rows (A.1 : Int) (A.2 : Int) p s →
      ValidPos rows p →
      docIdx rows p < docIdx rows A →
      docIdx rows A - docIdx rows p ≤ fuel →
      getSelGo Key.right fuel s acc =
        some (acc ++
          (posSeq rows (docIdx rows A - docIdx rows p + 1) p).map
            (atPos rows)) := by
  intro fuel
  induction fuel with
  | zero =>
    intro p s acc _ _ hlt hf
    omega
  | succ fuel ih =>
    intro p s acc hinv hv hlt hf
    have hnext := valid_not_last rows p A hv hA hlt
    have hstep := moveRight_step rows (A.1 : Int) (A.2 : Int) p s hinv hv hnext
    have hss := succPos_spec rows p hv hnext
    have hat : atPoint s = atPos rows p :=
      atPoint_eq rows (A.1 : Int) (A.2 : Int) p s hinv hv
    have hstop := selStop_iff rows A (succPos rows p)
      (editorMoveCursor Key.right s) hstep
    unfold getSelGo
    dsimp only
    by_cases hc : docIdx rows p + 1 = docIdx rows A
    · have hpa : succPos rows p = A :=
        docIdx_inj rows _ A hss.1 hA (by omega)
      rw [if_pos (hstop.mpr hpa), hat,
        atPoint_eq rows (A.1 : Int) (A.2 : Int) (succPos rows p) _ hstep hss.1,
        show docIdx rows A - docIdx rows p + 1 = 2 by omega,
        show posSeq rows 2 p = [p, succPos rows p] from rfl]
      simp
    · have hne : ¬ succPos rows p = A := by
        intro he
        rw [he] at hss
        omega
      rw [if_neg (fun hc2 => hne (hstop.mp hc2)), hat]
      obtain ⟨e, he⟩ : ∃ e, docIdx rows A - docIdx rows p = e + 2 :=
        ⟨docIdx rows A - docIdx rows p - 2, by omega⟩
      have ihh := ih (succPos rows p) (editorMoveCursor Key.right s)
        (acc ++ [atPos rows p]) hstep hss.1 (by omega) (by omega)
      rw [hss.2, show docIdx rows A - (docIdx rows p + 1) = e + 1 by omega]
        at ihh
      rw [ihh, he,
        show posSeq rows (e + 2 + 1) p =
          p :: posSeq rows (e + 1 + 1) (succPos rows p) from rfl]
      simp

/-- The leftward `get_selection` walk from a point strictly after the
mark collects exactly the reverse-document-order bytes from the point to
the mark, both included. -/
theorem selGoLeft (rows : List Erow) (A : Nat × Nat) (hA : ValidPos rows A) :
    ∀ fuel p s acc, SelInv rows (A.1 : Int) (A.2 : Int) p s →
      ValidPos rows p →
      docIdx rows A < docIdx rows p →
      docIdx rows p - docIdx rows A ≤ fuel →
      getSelGo Key.left fuel s acc =
        some (acc ++
          (descSeq rows (docIdx rows p - docIdx rows A + 1) p).map
            (atPos rows)) := by
  intro fuel
  induction fuel with
  | zero =>
    intro p s acc _ _ hlt hf
    omega
  | succ fuel ih =>
    intro p s acc hinv hv hlt hf
    have h0 : 0 < docIdx rows p := by omega
    have hstep := moveLeft_step rows (A.1 : Int) (A.2 : Int) p s hinv hv h0
    have hps := predPos_spec rows p hv h0
    have hat : atPoint s = atPos rows p :=
      atPoint_eq rows (A.1 : Int) (A.2 : Int) p s hinv hv
    have hstop := selStop_iff rows A (predPos rows p)
      (editorMoveCursor Key.left s) hstep
    unfold getSelGo
    dsimp only
    by_cases hc : docIdx rows p = docIdx rows A + 1
    · have hpa : predPos rows p = A :=
        docIdx_inj rows _ A hps.1 hA (by omega)
      rw [if_pos (hstop.mpr hpa), hat,
        atPoint_eq rows (A.1 : Int) (A.2 : Int) (predPos rows p) _ hstep hps.1,
        show docIdx rows p - docIdx rows A + 1 = 2 by omega,
        show descSeq rows 2 p = [p, predPos rows p] from rfl]
      simp
    · have hne : ¬ predPos rows p = A := by
        intro he
        rw [he] at hps
        omega
      rw [if_neg (fun hc2 => hne (hstop.mp hc2)), hat]
      obtain ⟨e, he⟩ : ∃ e, docIdx rows p - docIdx rows A = e + 2 :=
        ⟨docIdx rows p - docIdx rows A - 2, by omega⟩
      have ihh := ih (predPos rows p) (editorMoveCursor Key.left s)
        (acc ++ [atPos rows p]) hstep hps.1 (by omega) (by omega)
      rw [show docIdx rows (predPos rows p) - docIdx rows A = e + 1 by omega]
        at ihh
      rw [ihh, he,
        show descSeq rows (e + 2 + 1) p =
          p :: descSeq rows (e + 1 + 1) (predPos rows p) from rfl]
      simp


/-- C3 (amended): for a buffer whose rows all fit on the screen and two
valid positions `B` strictly before `A` in document order, the selection
with mark `A` and cursor `B` (a rightward walk) and the selection with
mark `B` and cursor `A` (a leftward walk, re-reversed by `get_selection`)
are the SAME byte string — both are the document-order bytes from `B` to
`A` inclusive, with `at()` reading a newline at each end-of-row cell.
The byte-reversal relation stated by the claim does not hold; the two
calls agree without any reversal. -/
theorem C3_selection_equal (rows : List Erow) (A B : Nat × Nat)
    (sAB sBA : EState) (fuel : Nat)
    (hA : ValidPos rows A) (hB : ValidPos rows B)
    (hlt : docIdx rows B < docIdx rows A)
    (hAB : SelInv rows (A.1 : Int) (A.2 : Int) B sAB)
    (hBA : SelInv rows (B.1 : Int) (B.2 : Int) A sBA)
    (hfuel : docIdx rows A - docIdx rows B ≤ fuel) :
    get_selection sAB fuel = get_selection sBA fuel ∧
      get_selection sAB fuel =
        some ((posSeq rows (docIdx rows A - docIdx rows B + 1) B).map
          (atPos rows)) := by
  have hlex : B.2 < A.2 ∨ (B.2 = A.2 ∧ B.1 < A.1) := by
    rcases Nat.lt_trichotomy B.2 A.2 with h | h | h
    · exact Or.inl h
    · refine Or.inr ⟨h, ?_⟩
      unfold docIdx at hlt
      rw [h] at hlt
      omega
    · exact absurd (docIdx_lt_of_row_lt rows A B hA h) (by omega)
  have hR := selGoRight rows A hA fuel B sAB [] hAB hB hlt hfuel
  have hL := selGoLeft rows B hB fuel A sBA [] hBA hA hlt hfuel
  obtain ⟨hrows1, hnum1, hco1, hcx1, hpos1, hmx1, hmy1, hfit1⟩ := hAB
  obtain ⟨hrows2, hnum2, hco2, hcx2, hpos2, hmx2, hmy2, hfit2⟩ := hBA
  have hcondAB : ¬ (sAB.rowoff + sAB.cy > sAB.marky ∨
      (sAB.coloff + sAB.cx > sAB.markx ∧
        sAB.rowoff + sAB.cy = sAB.marky)) := by
    rw [hco1, hcx1, hpos1, hmx1, hmy1]
    intro hcon
    rcases hlex with h | ⟨h1, h2⟩ <;>
      rcases hcon with hcon | ⟨hcon1, hcon2⟩ <;> omega
  have hcondBA : sBA.rowoff + sBA.cy > sBA.marky ∨
      (sBA.coloff + sBA.cx > sBA.markx ∧
        sBA.rowoff + sBA.cy = sBA.marky) := by
    rw [hco2, hcx2, hpos2, hmx2, hmy2]
    rcases hlex with h | ⟨h1, h2⟩
    · exact Or.inl (by exact_mod_cast h)
    · exact Or.inr ⟨by omega, by omega⟩
  unfold get_selection
  dsimp only
  rw [if_neg hcondAB, if_pos hcondBA, hR, hL]
  simp only [List.nil_append, Option.map_some']
  have hdesc := descSeq_eq_posSeq rows (docIdx rows A - docIdx rows B) A hA
    (by omega)
  have hpi : predIter rows (docIdx rows A - docIdx rows B) A = B := by
    have hspec := predIter_spec rows (docIdx rows A - docIdx rows B) A hA
      (by omega)
    exact docIdx_inj rows _ B hspec.1 hB (by omega)
  rw [hdesc, hpi, List.map_reverse, List.reverse_reverse]
  exact ⟨rfl, trivial⟩

/-- The single row `"ab"`. -/
def c3row : Erow := ⟨['a', 'b'], ['a', 'b'], [], false⟩

/-- Buffer `["ab"]`, cursor at (0,0), mark at (2,0). -/
def c3sAB : EState :=
  { rows := [c3row], numrows := 1, cx := 0, cy := 0, coloff := 0,
    rowoff := 0, markx := 2, marky := 0, dirty := 0, filename := none,
    syn := none, tab_size := 8, screenrows := 23, screencols := 80 }

/-- Buffer `["ab"]`, cursor at (2,0), mark at (0,0). -/
def c3sBA : EState := { c3sAB with cx := 2, markx := 0 }

/-- C3, counterexample: on the buffer `["ab"]` with the two positions
(0,0) and (2,0), both orientations of `get_selection` return the same
string `"ab\n"` (the leftward walk re-reverses its collected bytes
before returning), so the claimed byte-reversal relation fails — the
reversal of `"ab\n"` is `"\nba"`, not `"ab\n"`. -/
theorem C3_counterexample :
    get_selection c3sAB 10 = some ['a', 'b', '\n'] ∧
    get_selection c3sBA 10 = some ['a', 'b', '\n'] ∧
    ¬ get_selection c3sAB 10 =
        (get_selection c3sBA 10).map List.reverse := by
  decide

theorem C3_selection_equal_witness :
    get_selection c3sAB 10 = get_selection c3sBA 10 ∧
      get_selection c3sAB 10 =
        some ((posSeq [c3row]
            (docIdx [c3row] (2, 0) - docIdx [c3row] (0, 0) + 1) (0, 0)).map
          (atPos [c3row])) :=
  C3_selection_equal [c3row] (2, 0) (0, 0) c3sAB c3sBA 10
    ⟨by decide, by decide⟩ ⟨by decide, by decide⟩ (by decide)
    ⟨rfl, by decide, rfl, by decide, by decide, by decide, by decide,
      by decide⟩
    ⟨rfl, by decide, rfl, by decide, by decide, by decide, by decide,
      by decide⟩
    (by decide)


end Kilua
